import Mathlib

/-!
Verification of the order-book maintenance engine.

This file gives a shallow embedding of the Rust sources of the
`rust_order_book_practice` repository and proves properties of the embedded
definitions.  The embedding covers:

* `src/order_book/order_book.rs` and `src/order_book/buffered_order_book.rs`
  (namespace `OB`): the book variant whose updates arrive through a
  `GenerationGuard` and whose pending map is a `HashMap`;
* `src/l2_order_book/order_book.rs` and `src/l2_order_book/buffered_order_book.rs`
  (namespace `L2`): the book variant whose updates are a plain `Vec` and whose
  pending map is a `BTreeMap`;
* `src/batched_deque/batched_deque.rs` (namespace `BD`);
* `src/generational_deque/generational_deque.rs` and
  `src/generational_deque/generation_guard.rs` (namespace `GD`);
* `src/parsing/order_book_update.rs` (namespace `Parsing`);
* `src/main.rs` (namespace `Driver`).

Conventions used throughout:

* Rust `u64`/`usize` fields become `Nat`; no arithmetic in the modelled code
  paths can overflow at the inputs of interest, and all comparisons are as in
  the source.
* A method `fn f(&mut self, ...) -> Result<(), Errors>` becomes a pure
  function returning `State × Except Errors Unit`: the returned state is the
  value of `self` after the call, including the mutations a failing call
  leaves behind.
* `BTreeMap<K, V>` becomes a strictly-sorted association list
  `List (K × V)`; the operations used by the source (`insert`, `remove`,
  `get`, `len`, iteration in key order) are modelled below.  `HashMap` is
  modelled by the same structure: every operation the source performs on its
  hash maps is order-independent, so the sorted list is an adequate
  canonical representation of the map's contents.
-/

deriving instance DecidableEq for Except

/-- Modelled from the spec: `rust_decimal::Decimal` (external library, not under
`src/`).  The spec only uses that decimals are exact (never float-tolerant)
values on which `% 0.01` can be tested exactly; an exact rational captures
this. -/
abbrev Decimal := Rat

/-- Modelled from the spec: an `f64` value as seen by `Decimal::from_f64`
(external library, not under `src/`).  Per the spec, conversion from binary
float to decimal "must succeed (NaN, infinities, and non-representable
magnitudes fail)".  We represent a float by the exact decimal value it
converts to (`some q`), or by `none` when the conversion fails. -/
abbrev F64 := Option Rat

/-- Modelled from the spec: `Decimal::from_f64` returns the decimal value of a
convertible float and `None` for NaN/infinite/non-representable values. -/
def from_f64 (price : F64) : Option Decimal := price

/-- A concrete decimal literal `n / d` in lowest terms (the proofs are the
`Rat` well-formedness fields). -/
def mkDec (n : Int) (d : Nat) (h1 : d ≠ 0) (h2 : n.natAbs.Coprime d) : Rat :=
  ⟨n, d, h1, h2⟩

/-- `OrderBook::PRICE_TICK = dec!(0.01)`. -/
def PRICE_TICK : Decimal := mkDec 1 100 (by decide) (by decide)

/-- The source's exact tick test `dec % Self::PRICE_TICK == dec!(0.0)`:
a decimal passes iff it is an exact integer multiple of `0.01`.  For a
rational in lowest terms that holds iff its denominator divides 100, which
is the directly computable formulation used here. -/
def tickExact (d : Decimal) : Bool := 100 % d.den == 0

theorem PRICE_TICK_eq : PRICE_TICK = (1 : ℚ) / 100 := by
  rw [PRICE_TICK, mkDec]
  rw [Rat.mk_eq_divInt, Rat.divInt_eq_div]
  norm_num

/-- Sanity link for the computable tick test: it accepts exactly the
integer multiples of `PRICE_TICK`. -/
theorem tickExact_iff (d : Decimal) :
    tickExact d = true ↔ ∃ z : ℤ, d = z * PRICE_TICK := by
  rw [PRICE_TICK_eq]
  constructor
  · intro h
    have hmod : 100 % d.den = 0 := by simpa [tickExact] using h
    obtain ⟨c, hc⟩ := Nat.dvd_of_mod_eq_zero hmod
    have hc0 : c ≠ 0 := by
      intro h0
      rw [h0] at hc
      simp at hc
    refine ⟨d.num * c, ?_⟩
    have hden : (d.den : ℚ) ≠ 0 := by
      exact_mod_cast d.den_nz
    have hcq : (c : ℚ) ≠ 0 := by exact_mod_cast hc0
    have h100 : (100 : ℚ) = (d.den : ℚ) * c := by exact_mod_cast hc
    symm
    push_cast
    rw [h100]
    conv_rhs => rw [← Rat.num_div_den d]
    field_simp
    ring
  · rintro ⟨z, hz⟩
    have hz' : d = Rat.divInt z 100 := by
      rw [Rat.divInt_eq_div, hz]
      push_cast
      ring
    have hdvd : (d.den : ℤ) ∣ 100 := by
      rw [hz']
      exact Rat.den_dvd z 100
    have hdvd' : d.den ∣ 100 := by exact_mod_cast hdvd
    simp [tickExact, Nat.mod_eq_zero_of_dvd hdvd']

/-- `UpdateMessageInfo` from `src/order_book/errors.rs`. -/
structure UpdateMessageInfo where
  security_id : Nat
  seq_no : Nat
deriving DecidableEq, Repr

/-- `Errors` from `src/order_book/errors.rs` (the `l2_order_book` error enum
has the same constructors, as witnessed by its uses in `src/main.rs` and the
`l2_order_book` sources).  The `String` payloads carry the diagnostic
messages; the `format!` interpolation of the offending value is abstracted to
a fixed description, since no code path inspects the message text. -/
inductive Errors where
  | SequenceNumberGap
  | OldSequenceNumber
  | InvalidPrice (info : UpdateMessageInfo) (msg : String)
  | InvalidSide (info : UpdateMessageInfo) (msg : String)
  | SecurityIdMismatch
  | OrderBookNotFound
deriving DecidableEq, Repr

/-- Does an `Errors` value have the `InvalidPrice` constructor? -/
def Errors.isInvalidPrice : Errors → Bool
  | .InvalidPrice _ _ => true
  | _ => false

/-- Does an `Errors` value have the `InvalidSide` constructor? -/
def Errors.isInvalidSide : Errors → Bool
  | .InvalidSide _ _ => true
  | _ => false

section AssocMap

variable {κ : Type} {β : Type} [LinearOrder κ]

/-- `BTreeMap::insert` on the sorted-association-list model: overwrite the
entry with an equal key, otherwise insert at the sorted position. -/
def listInsert (k : κ) (v : β) : List (κ × β) → List (κ × β)
  | [] => [(k, v)]
  | (a, b) :: t =>
    if k < a then (k, v) :: (a, b) :: t
    else if k = a then (k, v) :: t
    else (a, b) :: listInsert k v t

/-- `BTreeMap::get` on the model: first entry with an equal key. -/
def listLookup (k : κ) : List (κ × β) → Option β
  | [] => none
  | (a, b) :: t => if k = a then some b else listLookup k t

/-- `BTreeMap::remove` on the model: drop every entry with an equal key
(association lists built by `listInsert` never hold duplicate keys, so this
agrees with removing the single entry). -/
def listEraseKey (k : κ) (m : List (κ × β)) : List (κ × β) :=
  m.filter (fun kv => decide (kv.1 ≠ k))

theorem listLookup_listInsert_self (k : κ) (v : β) (m : List (κ × β)) :
    listLookup k (listInsert k v m) = some v := by
  induction m with
  | nil => simp [listInsert, listLookup]
  | cons hd t ih =>
    obtain ⟨a, b⟩ := hd
    by_cases hlt : k < a
    · simp [listInsert, listLookup, hlt]
    · by_cases heq : k = a
      · simp [listInsert, listLookup, hlt, heq]
      · simp [listInsert, listLookup, hlt, heq, ih]

theorem listLookup_listInsert_ne (k k' : κ) (v : β) (m : List (κ × β))
    (h : k' ≠ k) : listLookup k' (listInsert k v m) = listLookup k' m := by
  induction m with
  | nil => simp [listInsert, listLookup, h]
  | cons hd t ih =>
    obtain ⟨a, b⟩ := hd
    by_cases hlt : k < a
    · simp [listInsert, listLookup, hlt, h]
    · by_cases heq : k = a
      · subst heq
        simp [listInsert, listLookup, hlt, h]
      · by_cases h'a : k' = a
        · simp [listInsert, listLookup, hlt, heq, h'a]
        · simp [listInsert, listLookup, hlt, heq, h'a, ih]

theorem listLookup_listEraseKey_self (k : κ) (m : List (κ × β)) :
    listLookup k (listEraseKey k m) = none := by
  induction m with
  | nil => simp [listEraseKey, listLookup]
  | cons hd t ih =>
    obtain ⟨a, b⟩ := hd
    by_cases heq : a = k
    · simpa [listEraseKey, heq] using ih
    · have : k ≠ a := fun h => heq h.symm
      simpa [listEraseKey, listLookup, heq, this] using ih

theorem listLookup_listEraseKey_ne (k k' : κ) (m : List (κ × β))
    (h : k' ≠ k) : listLookup k' (listEraseKey k m) = listLookup k' m := by
  induction m with
  | nil => simp [listEraseKey, listLookup]
  | cons hd t ih =>
    obtain ⟨a, b⟩ := hd
    by_cases heq : a = k
    · subst heq
      have : k' ≠ a := h
      simpa [listEraseKey, listLookup, this] using ih
    · by_cases h'a : k' = a
      · simp [listEraseKey, listLookup, heq, h'a]
      · simpa [listEraseKey, listLookup, heq, h'a] using ih

theorem listInsert_length_le (k : κ) (v : β) (m : List (κ × β)) :
    (listInsert k v m).length ≤ m.length + 1 := by
  induction m with
  | nil => simp [listInsert]
  | cons hd t ih =>
    obtain ⟨a, b⟩ := hd
    by_cases hlt : k < a
    · simp [listInsert, hlt]
    · by_cases heq : k = a
      · simp [listInsert, hlt, heq]
      · simp only [listInsert, if_neg hlt, if_neg heq, List.length_cons]
        omega

theorem listEraseKey_length_le (k : κ) (m : List (κ × β)) :
    (listEraseKey k m).length ≤ m.length :=
  List.length_filter_le _ m

theorem listLookup_some_mem (k : κ) (m : List (κ × β)) {v : β}
    (h : listLookup k m = some v) : (k, v) ∈ m := by
  induction m with
  | nil => simp [listLookup] at h
  | cons hd t ih =>
    obtain ⟨a, b⟩ := hd
    by_cases heq : k = a
    · subst heq
      have hb : b = v := by simpa [listLookup] using h
      subst hb
      exact List.mem_cons_self _ _
    · have h' : listLookup k t = some v := by simpa [listLookup, heq] using h
      exact List.mem_cons_of_mem _ (ih h')

theorem listEraseKey_length_lt (k : κ) (m : List (κ × β)) {v : β}
    (h : listLookup k m = some v) :
    (listEraseKey k m).length < m.length := by
  refine List.length_filter_lt_length_iff_exists.mpr ?_
  exact ⟨(k, v), listLookup_some_mem k m h, by simp⟩

end AssocMap

/-- `Level` from `src/parsing/order_book_snapshot.rs`. -/
structure SnapshotLevel where
  price : F64
  qty : Nat
deriving DecidableEq, Repr

/-- `OrderBookSnapshot` from `src/parsing/order_book_snapshot.rs`. -/
structure OrderBookSnapshot where
  timestamp : Nat
  seq_no : Nat
  security_id : Nat
  bid1 : SnapshotLevel
  ask1 : SnapshotLevel
  bid2 : SnapshotLevel
  ask2 : SnapshotLevel
  bid3 : SnapshotLevel
  ask3 : SnapshotLevel
  bid4 : SnapshotLevel
  ask4 : SnapshotLevel
  bid5 : SnapshotLevel
  ask5 : SnapshotLevel
deriving DecidableEq, Repr

/-- `OrderBook::normalized_price` (identical in
`src/order_book/order_book.rs` and `src/l2_order_book/order_book.rs`):
convert the float to a decimal, then require an exact tick multiple. -/
def normalized_price (security_id seq_no : Nat) (price : F64) :
    Except Errors Decimal :=
  match from_f64 price with
  | some dec =>
    if tickExact dec then Except.ok dec
    else
      Except.error (Errors.InvalidPrice ⟨security_id, seq_no⟩
        "The price is not a multiple of PRICE_TICK")
  | none =>
    Except.error (Errors.InvalidPrice ⟨security_id, seq_no⟩
      "Failed to convert f64 value to Decimal")

/-- The commit loop at the end of `apply_update` in both book variants:
drain the scratch vector into a side map, `qty = 0` removing the price and
`qty > 0` inserting/overwriting it. -/
def applyLevelChanges (changes : List (Decimal × Nat))
    (m : List (Decimal × Nat)) : List (Decimal × Nat) :=
  changes.foldl
    (fun acc pq =>
      if pq.2 = 0 then listEraseKey pq.1 acc else listInsert pq.1 pq.2 acc) m

/-- The commit loop at the end of `apply_snapshot_sides` in both book
variants: drain the scratch vector into a freshly cleared side map by plain
insertion. -/
def insertAll (changes : List (Decimal × Nat))
    (m : List (Decimal × Nat)) : List (Decimal × Nat) :=
  changes.foldl (fun acc pq => listInsert pq.1 pq.2 acc) m

/-- `snapshot.ask1 .. snapshot.ask5`, in the order `apply_snapshot_sides`
visits them. -/
def snapshotAskLevels (s : OrderBookSnapshot) : List SnapshotLevel :=
  [s.ask1, s.ask2, s.ask3, s.ask4, s.ask5]

/-- `snapshot.bid1 .. snapshot.bid5`, in the order `apply_snapshot_sides`
visits them. -/
def snapshotBidLevels (s : OrderBookSnapshot) : List SnapshotLevel :=
  [s.bid1, s.bid2, s.bid3, s.bid4, s.bid5]

/-- The five sequential `if qty > 0 { push((normalized_price(...)?, qty)) }`
blocks of `apply_snapshot_sides`, one fold step per block: a level with
positive quantity has its price normalised (an error aborting with the
scratch accumulated so far, exactly as the `?` operator does) and is pushed
onto the scratch vector; a level with quantity 0 is skipped entirely. -/
def pushSnapshotLevels (security_id seq_no : Nat) :
    List SnapshotLevel → List (Decimal × Nat) →
      List (Decimal × Nat) × Option Errors
  | [], acc => (acc, none)
  | l :: ls, acc =>
    if l.qty > 0 then
      match normalized_price security_id seq_no l.price with
      | .ok p => pushSnapshotLevels security_id seq_no ls (acc ++ [(p, l.qty)])
      | .error e => (acc, some e)
    else pushSnapshotLevels security_id seq_no ls acc

namespace OB

/-- `Level` from `src/parsing/order_book_update.rs` as consumed by
`src/order_book/order_book.rs`: one `(side, price, qty)` update entry; the
`seq_no` field is the generation used by the `GenerationalDeque` `Item`
implementation (see the `order_book` test construction sites). -/
structure Level where
  side : Nat
  price : F64
  qty : Nat
  seq_no : Nat
deriving DecidableEq, Repr

/-- `OrderBook` from `src/order_book/order_book.rs`, including the two
scratch vectors used during atomic application. -/
structure OrderBook where
  timestamp : Nat
  seq_no : Nat
  security_id : Nat
  bids : List (Decimal × Nat)
  asks : List (Decimal × Nat)
  bid_updates : List (Decimal × Nat)
  ask_updates : List (Decimal × Nat)
deriving DecidableEq, Repr

/-- `OrderBookUpdate` from `src/parsing/order_book_update.rs` as consumed by
`src/order_book/order_book.rs`.  The `updates` field carries the sequence of
entries the `GenerationGuard::for_each` traversal yields for this update (the
guard itself is modelled in namespace `GD`; `for_each` yields the entries of
the guarded range that are present in the deque, in index order). -/
structure OrderBookUpdate where
  timestamp : Nat
  seq_no : Nat
  security_id : Nat
  updates : List Level
deriving DecidableEq, Repr

/-- The `update.updates.for_each(...)` walk of `OrderBook::apply_update` in
`src/order_book/order_book.rs` (lines 56-75): normalise each entry's price,
then dispatch on the side, pushing onto the corresponding scratch vector;
the first failure aborts the walk, leaving the scratch pushed so far. -/
def prepareUpdates (security_id seq_no : Nat) :
    List Level → OrderBook → OrderBook × Option Errors
  | [], b => (b, none)
  | upd :: rest, b =>
    match normalized_price security_id seq_no upd.price with
    | .error e => (b, some e)
    | .ok price =>
      if upd.side = 0 then
        prepareUpdates security_id seq_no rest
          { b with bid_updates := b.bid_updates ++ [(price, upd.qty)] }
      else if upd.side = 1 then
        prepareUpdates security_id seq_no rest
          { b with ask_updates := b.ask_updates ++ [(price, upd.qty)] }
      else
        (b, some (Errors.InvalidSide ⟨security_id, seq_no⟩ (toString upd.side)))

/-- `OrderBook::apply_update` from `src/order_book/order_book.rs`.  Note that
this variant clears both scratch vectors before the walk (lines 53-54). -/
def apply_update (b : OrderBook) (update : OrderBookUpdate) :
    OrderBook × Except Errors Unit :=
  if update.security_id ≠ b.security_id then (b, .error .SecurityIdMismatch)
  else if update.seq_no ≤ b.seq_no then (b, .error .OldSequenceNumber)
  else if update.seq_no ≠ b.seq_no + 1 then (b, .error .SequenceNumberGap)
  else
    let b1 := { b with ask_updates := [], bid_updates := [] }
    match prepareUpdates update.security_id update.seq_no update.updates b1 with
    | (b2, some e) => (b2, .error e)
    | (b2, none) =>
      ({ b2 with
          bids := applyLevelChanges b2.bid_updates b2.bids,
          asks := applyLevelChanges b2.ask_updates b2.asks,
          bid_updates := [], ask_updates := [],
          timestamp := update.timestamp, seq_no := update.seq_no }, .ok ())

/-- `OrderBook::apply_snapshot_sides` from `src/order_book/order_book.rs`.
This variant clears both scratch vectors first (lines 116-117); the asks are
prepared before the bids, and on success both side maps are cleared and
rebuilt from the scratch vectors. -/
def apply_snapshot_sides (b : OrderBook) (s : OrderBookSnapshot) :
    OrderBook × Except Errors Unit :=
  let b0 := { b with ask_updates := [], bid_updates := [] }
  match pushSnapshotLevels s.security_id s.seq_no (snapshotAskLevels s)
      b0.ask_updates with
  | (askUpd, some e) => ({ b0 with ask_updates := askUpd }, .error e)
  | (askUpd, none) =>
    match pushSnapshotLevels s.security_id s.seq_no (snapshotBidLevels s)
        b0.bid_updates with
    | (bidUpd, some e) =>
      ({ b0 with ask_updates := askUpd, bid_updates := bidUpd }, .error e)
    | (bidUpd, none) =>
      ({ b0 with
          asks := insertAll askUpd [],
          bids := insertAll bidUpd [],
          ask_updates := [], bid_updates := [] }, .ok ())

/-- `OrderBook::apply_snapshot` from `src/order_book/order_book.rs`. -/
def apply_snapshot (b : OrderBook) (s : OrderBookSnapshot) :
    OrderBook × Except Errors Unit :=
  if s.security_id ≠ b.security_id then (b, .error .SecurityIdMismatch)
  else if s.seq_no ≤ b.seq_no then (b, .error .OldSequenceNumber)
  else
    match apply_snapshot_sides b s with
    | (b', .error e) => (b', .error e)
    | (b', .ok _) =>
      ({ b' with timestamp := s.timestamp, seq_no := s.seq_no }, .ok ())

/-- `OrderBook::new` from `src/order_book/order_book.rs`. -/
def new (s : OrderBookSnapshot) : Except Errors OrderBook :=
  let b0 : OrderBook :=
    { timestamp := s.timestamp, seq_no := s.seq_no,
      security_id := s.security_id,
      bids := [], asks := [], bid_updates := [], ask_updates := [] }
  match apply_snapshot_sides b0 s with
  | (b', .ok _) => .ok b'
  | (_, .error e) => .error e

end OB

namespace L2

/-- `Update` from the `l2_order_book` parsing layer (one `(side, price, qty)`
entry of an update's plain `Vec`), as used by `src/l2_order_book`. -/
structure Update where
  side : Nat
  price : F64
  qty : Nat
deriving DecidableEq, Repr

/-- `OrderBook` from `src/l2_order_book/order_book.rs`, including the two
scratch vectors. -/
structure OrderBook where
  timestamp : Nat
  seq_no : Nat
  security_id : Nat
  bids : List (Decimal × Nat)
  asks : List (Decimal × Nat)
  bid_updates : List (Decimal × Nat)
  ask_updates : List (Decimal × Nat)
deriving DecidableEq, Repr

/-- `OrderBookUpdate` as consumed by `src/l2_order_book/order_book.rs`:
the `updates` field is a plain vector of entries. -/
structure OrderBookUpdate where
  timestamp : Nat
  seq_no : Nat
  security_id : Nat
  updates : List Update
deriving DecidableEq, Repr

/-- The `for upd in &update.updates` walk of `OrderBook::apply_update` in
`src/l2_order_book/order_book.rs` (lines 53-69): same per-entry processing
as the `order_book` variant. -/
def prepareUpdates (security_id seq_no : Nat) :
    List Update → OrderBook → OrderBook × Option Errors
  | [], b => (b, none)
  | upd :: rest, b =>
    match normalized_price security_id seq_no upd.price with
    | .error e => (b, some e)
    | .ok price =>
      if upd.side = 0 then
        prepareUpdates security_id seq_no rest
          { b with bid_updates := b.bid_updates ++ [(price, upd.qty)] }
      else if upd.side = 1 then
        prepareUpdates security_id seq_no rest
          { b with ask_updates := b.ask_updates ++ [(price, upd.qty)] }
      else
        (b, some (Errors.InvalidSide ⟨security_id, seq_no⟩ (toString upd.side)))

/-- `OrderBook::apply_update` from `src/l2_order_book/order_book.rs`.
Unlike the `order_book` variant, this variant does NOT clear the scratch
vectors before the walk: whatever a previously failed call left in them is
still there and is drained together with this update's entries. -/
def apply_update (b : OrderBook) (update : OrderBookUpdate) :
    OrderBook × Except Errors Unit :=
  if update.security_id ≠ b.security_id then (b, .error .SecurityIdMismatch)
  else if update.seq_no ≤ b.seq_no then (b, .error .OldSequenceNumber)
  else if update.seq_no ≠ b.seq_no + 1 then (b, .error .SequenceNumberGap)
  else
    match prepareUpdates update.security_id update.seq_no update.updates b with
    | (b2, some e) => (b2, .error e)
    | (b2, none) =>
      ({ b2 with
          bids := applyLevelChanges b2.bid_updates b2.bids,
          asks := applyLevelChanges b2.ask_updates b2.asks,
          bid_updates := [], ask_updates := [],
          timestamp := update.timestamp, seq_no := update.seq_no }, .ok ())

/-- `OrderBook::apply_snapshot_sides` from `src/l2_order_book/order_book.rs`.
This variant does NOT clear the scratch vectors first (compare
`src/order_book/order_book.rs` lines 116-117): the pushed snapshot levels are
appended after any leftover scratch content. -/
def apply_snapshot_sides (b : OrderBook) (s : OrderBookSnapshot) :
    OrderBook × Except Errors Unit :=
  match pushSnapshotLevels s.security_id s.seq_no (snapshotAskLevels s)
      b.ask_updates with
  | (askUpd, some e) => ({ b with ask_updates := askUpd }, .error e)
  | (askUpd, none) =>
    match pushSnapshotLevels s.security_id s.seq_no (snapshotBidLevels s)
        b.bid_updates with
    | (bidUpd, some e) =>
      ({ b with ask_updates := askUpd, bid_updates := bidUpd }, .error e)
    | (bidUpd, none) =>
      ({ b with
          asks := insertAll askUpd [],
          bids := insertAll bidUpd [],
          ask_updates := [], bid_updates := [] }, .ok ())

/-- `OrderBook::apply_snapshot` from `src/l2_order_book/order_book.rs`. -/
def apply_snapshot (b : OrderBook) (s : OrderBookSnapshot) :
    OrderBook × Except Errors Unit :=
  if s.security_id ≠ b.security_id then (b, .error .SecurityIdMismatch)
  else if s.seq_no ≤ b.seq_no then (b, .error .OldSequenceNumber)
  else
    match apply_snapshot_sides b s with
    | (b', .error e) => (b', .error e)
    | (b', .ok _) =>
      ({ b' with timestamp := s.timestamp, seq_no := s.seq_no }, .ok ())

/-- `OrderBook::new` from `src/l2_order_book/order_book.rs`. -/
def new (s : OrderBookSnapshot) : Except Errors OrderBook :=
  let b0 : OrderBook :=
    { timestamp := s.timestamp, seq_no := s.seq_no,
      security_id := s.security_id,
      bids := [], asks := [], bid_updates := [], ask_updates := [] }
  match apply_snapshot_sides b0 s with
  | (b', .ok _) => .ok b'
  | (_, .error e) => .error e

end L2

namespace OB

/-- `BufferedOrderBook::MAX_PENDING_UPDATES` from
`src/order_book/buffered_order_book.rs`. -/
def MAX_PENDING_UPDATES : Nat := 10000

/-- `BufferedOrderBook` from `src/order_book/buffered_order_book.rs`.  The
`HashMap<u64, OrderBookUpdate>` is modelled by a sorted association list
(every operation the source performs on it is order-independent). -/
structure BufferedOrderBook where
  order_book : OrderBook
  pending_updates : List (Nat × OrderBookUpdate)
deriving DecidableEq, Repr

/-- The `loop` of `BufferedOrderBook::try_apply_pending_updates` from
`src/order_book/buffered_order_book.rs` (lines 68-80), with an explicit
fuel: with `n = seq_no + 1`, remove the pending entry at `n` and apply it,
stopping at the first absent key or the first failed apply.  Every iteration
removes one pending entry, so `pending.length` iterations always suffice
(see `tryApplyFuel_eq_of_le` below). -/
def tryApplyFuel : Nat → OrderBook → List (Nat × OrderBookUpdate) →
    OrderBook × List (Nat × OrderBookUpdate)
  | 0, b, pending => (b, pending)
  | fuel + 1, b, pending =>
    match listLookup (b.seq_no + 1) pending with
    | some u =>
      match apply_update b u with
      | (b', .ok _) =>
        tryApplyFuel fuel b' (listEraseKey (b.seq_no + 1) pending)
      | (b', .error _) => (b', listEraseKey (b.seq_no + 1) pending)
    | none => (b, pending)

/-- `BufferedOrderBook::try_apply_pending_updates` from
`src/order_book/buffered_order_book.rs`. -/
def try_apply_pending_updates (b : OrderBook)
    (pending : List (Nat × OrderBookUpdate)) :
    OrderBook × List (Nat × OrderBookUpdate) :=
  tryApplyFuel pending.length b pending

theorem tryApplyFuel_eq_of_le :
    ∀ (fuel : Nat) (b : OrderBook) (pending : List (Nat × OrderBookUpdate)),
      pending.length ≤ fuel →
      tryApplyFuel fuel b pending = tryApplyFuel pending.length b pending := by
  intro fuel
  induction fuel using Nat.strong_induction_on with
  | _ fuel ih =>
    intro b pending hle
    match fuel, hle with
    | 0, hle =>
      have : pending = [] := List.length_eq_zero.mp (Nat.le_zero.mp hle)
      subst this
      rfl
    | (m + 1), hle =>
      rcases hlen : pending.length with _ | k
      · have : pending = [] := List.length_eq_zero.mp hlen
        subst this
        rfl
      · cases h : listLookup (b.seq_no + 1) pending with
        | none => simp [tryApplyFuel, h]
        | some u =>
          have hel :
              (listEraseKey (b.seq_no + 1) pending).length < pending.length :=
            listEraseKey_length_lt _ _ h
          cases happ : apply_update b u with
          | mk b' res =>
            cases res with
            | ok v =>
              cases v
              simp only [tryApplyFuel, h, happ]
              have e1 :=
                ih m (by omega) b' (listEraseKey (b.seq_no + 1) pending)
                  (by omega)
              have e2 :=
                ih k (by omega) b' (listEraseKey (b.seq_no + 1) pending)
                  (by omega)
              rw [e1, e2]
            | error e =>
              simp [tryApplyFuel, h, happ]

/-- The loop recurrence of `try_apply_pending_updates`: take
`n = seq_no + 1`; if the pending map contains `n`, remove that entry and
apply it — recursing on success and stopping on failure — and stop when the
key is absent. -/
theorem try_apply_pending_updates_eq (b : OrderBook)
    (pending : List (Nat × OrderBookUpdate)) :
    try_apply_pending_updates b pending =
      match listLookup (b.seq_no + 1) pending with
      | some u =>
        match apply_update b u with
        | (b', .ok _) =>
          try_apply_pending_updates b' (listEraseKey (b.seq_no + 1) pending)
        | (b', .error _) => (b', listEraseKey (b.seq_no + 1) pending)
      | none => (b, pending) := by
  cases h : listLookup (b.seq_no + 1) pending with
  | none =>
    rw [try_apply_pending_updates]
    rcases hlen : pending.length with _ | k
    · have : pending = [] := List.length_eq_zero.mp hlen
      subst this
      rfl
    · simp [tryApplyFuel, h]
  | some u =>
    have hel : (listEraseKey (b.seq_no + 1) pending).length < pending.length :=
      listEraseKey_length_lt _ _ h
    rw [try_apply_pending_updates]
    rcases hlen : pending.length with _ | k
    · omega
    · cases happ : apply_update b u with
      | mk b' res =>
        cases res with
        | ok v =>
          cases v
          simp only [tryApplyFuel, h, happ]
          exact tryApplyFuel_eq_of_le k b' _ (by omega)
        | error e => simp [tryApplyFuel, h, happ]

/-- `BufferedOrderBook::apply_update` from
`src/order_book/buffered_order_book.rs`: delegate; on success run catch-up;
on `SequenceNumberGap` clear the pending map when it is at capacity and then
insert the update (a displaced duplicate has its guard's ownership dropped,
which touches only the arena, not this state); other errors pass through. -/
def BufferedOrderBook.apply_update (bb : BufferedOrderBook)
    (update : OrderBookUpdate) : BufferedOrderBook × Except Errors Unit :=
  match OB.apply_update bb.order_book update with
  | (b', .ok _) =>
    let r := try_apply_pending_updates b' bb.pending_updates
    ({ order_book := r.1, pending_updates := r.2 }, .ok ())
  | (b', .error Errors.SequenceNumberGap) =>
    let p0 :=
      if bb.pending_updates.length ≥ MAX_PENDING_UPDATES then []
      else bb.pending_updates
    ({ order_book := b',
       pending_updates := listInsert update.seq_no update p0 },
     .error Errors.SequenceNumberGap)
  | (b', .error e) =>
    ({ order_book := b', pending_updates := bb.pending_updates }, .error e)

/-- `BufferedOrderBook::apply_snapshot` from
`src/order_book/buffered_order_book.rs`: delegate; on success remove every
pending entry with key in `[old_seq_no, snapshot.seq_no)` (the source's
`for seq_no in old_seq_no..snapshot.seq_no { remove }` loop) and run
catch-up. -/
def BufferedOrderBook.apply_snapshot (bb : BufferedOrderBook)
    (s : OrderBookSnapshot) : BufferedOrderBook × Except Errors Unit :=
  let old_seq_no := bb.order_book.seq_no
  match OB.apply_snapshot bb.order_book s with
  | (b', .ok _) =>
    let subsumed := bb.pending_updates.filter
      (fun kv => decide (¬ (old_seq_no ≤ kv.1 ∧ kv.1 < s.seq_no)))
    let r := try_apply_pending_updates b' subsumed
    ({ order_book := r.1, pending_updates := r.2 }, .ok ())
  | (b', .error e) =>
    ({ order_book := b', pending_updates := bb.pending_updates }, .error e)

end OB

namespace L2

/-- `BufferedOrderBook::MAX_PENDING_UPDATES` from
`src/l2_order_book/buffered_order_book.rs`. -/
def MAX_PENDING_UPDATES : Nat := 1000

/-- `BufferedOrderBook` from `src/l2_order_book/buffered_order_book.rs`.
The `BTreeMap<u64, OrderBookUpdate>` is modelled by a sorted association
list, whose order matches the map's iteration order. -/
structure BufferedOrderBook where
  order_book : OrderBook
  pending_updates : List (Nat × OrderBookUpdate)
deriving DecidableEq, Repr

/-- The `for (key, update) in &self.pending_updates` loop of
`try_apply_pending_updates` in `src/l2_order_book/buffered_order_book.rs`
(lines 54-67): walk the pending entries in key order, applying each;
`Ok` and `OldSequenceNumber` record the key as the last successful one and
continue, any other error stops the walk. -/
def tryApplyGo (b : OrderBook) :
    List (Nat × OrderBookUpdate) → Option Nat → OrderBook × Option Nat
  | [], last => (b, last)
  | (k, u) :: t, last =>
    match apply_update b u with
    | (b', .ok _) => tryApplyGo b' t (some k)
    | (b', .error Errors.OldSequenceNumber) => tryApplyGo b' t (some k)
    | (b', .error _) => (b', last)

/-- `BufferedOrderBook::try_apply_pending_updates` from
`src/l2_order_book/buffered_order_book.rs` (lines 53-83): after the walk,
keep only the pending entries whose key is strictly greater than the last
successful key (the source's `split_off` at the first strictly greater key,
or `clear` when there is none, keeps exactly those entries of the sorted
map). -/
def try_apply_pending_updates (b : OrderBook)
    (pending : List (Nat × OrderBookUpdate)) :
    OrderBook × List (Nat × OrderBookUpdate) :=
  match tryApplyGo b pending none with
  | (b', none) => (b', pending)
  | (b', some k) => (b', pending.filter (fun kv => decide (k < kv.1)))

/-- `BufferedOrderBook::apply_update` from
`src/l2_order_book/buffered_order_book.rs`: delegate; on success run
catch-up; on `SequenceNumberGap` pop the smallest pending key when the map is
at capacity, then insert; other errors pass through. -/
def BufferedOrderBook.apply_update (bb : BufferedOrderBook)
    (update : OrderBookUpdate) : BufferedOrderBook × Except Errors Unit :=
  match L2.apply_update bb.order_book update with
  | (b', .ok _) =>
    let r := try_apply_pending_updates b' bb.pending_updates
    ({ order_book := r.1, pending_updates := r.2 }, .ok ())
  | (b', .error Errors.SequenceNumberGap) =>
    let p0 :=
      if bb.pending_updates.length ≥ MAX_PENDING_UPDATES then
        bb.pending_updates.tail
      else bb.pending_updates
    ({ order_book := b',
       pending_updates := listInsert update.seq_no update p0 },
     .error Errors.SequenceNumberGap)
  | (b', .error e) =>
    ({ order_book := b', pending_updates := bb.pending_updates }, .error e)

/-- `BufferedOrderBook::apply_snapshot` from
`src/l2_order_book/buffered_order_book.rs`: delegate; on success run
catch-up. -/
def BufferedOrderBook.apply_snapshot (bb : BufferedOrderBook)
    (s : OrderBookSnapshot) : BufferedOrderBook × Except Errors Unit :=
  match L2.apply_snapshot bb.order_book s with
  | (b', .ok _) =>
    let r := try_apply_pending_updates b' bb.pending_updates
    ({ order_book := r.1, pending_updates := r.2 }, .ok ())
  | (b', .error e) =>
    ({ order_book := b', pending_updates := bb.pending_updates }, .error e)

/-- `BufferedOrderBook::new` from `src/l2_order_book/buffered_order_book.rs`. -/
def BufferedOrderBook.new (ob : OrderBook) : BufferedOrderBook :=
  { order_book := ob, pending_updates := [] }

/-- `Manager` from `src/l2_order_book/manager.rs`. -/
structure Manager where
  buffered_order_books : List (Nat × BufferedOrderBook)
deriving DecidableEq, Repr

/-- `Manager::apply_update` from `src/l2_order_book/manager.rs`: look the
buffered book up by security id (`get_mut` is modelled as lookup plus
writing the mutated book back); absent books give `OrderBookNotFound`. -/
def Manager.apply_update (m : Manager) (update : OrderBookUpdate) :
    Manager × Except Errors Unit :=
  match listLookup update.security_id m.buffered_order_books with
  | some bb =>
    let r := bb.apply_update update
    ({ buffered_order_books :=
        listInsert update.security_id r.1 m.buffered_order_books }, r.2)
  | none => (m, .error Errors.OrderBookNotFound)

/-- `Manager::apply_snapshot` from `src/l2_order_book/manager.rs`: a vacant
entry constructs the book from the snapshot and installs it, an occupied
entry delegates. -/
def Manager.apply_snapshot (m : Manager) (s : OrderBookSnapshot) :
    Manager × Except Errors Unit :=
  match listLookup s.security_id m.buffered_order_books with
  | none =>
    match L2.new s with
    | .ok ob =>
      ({ buffered_order_books :=
          listInsert s.security_id (BufferedOrderBook.new ob)
            m.buffered_order_books }, .ok ())
    | .error e => (m, .error e)
  | some bb =>
    let r := bb.apply_snapshot s
    ({ buffered_order_books :=
        listInsert s.security_id r.1 m.buffered_order_books }, r.2)

end L2

namespace Driver

/-- `apply_order_book_records_from_file` from `src/main.rs` (lines 78-132),
applied to the sequence of items the `BinaryFileIterator` yields for the
already-opened file.  A decoded record is applied to the manager and every
book-layer error is merely reported or ignored (lines 91-118); a parser
error reports the file as corrupted and returns — note that this return path
yields `true` (line 127), exactly as in the source. -/
def apply_order_book_records_from_file {T : Type}
    (apply : L2.Manager → T → L2.Manager × Except Errors Unit) :
    L2.Manager → List (Except String T) → L2.Manager × Bool
  | mgr, [] => (mgr, true)
  | mgr, (.ok r) :: rest =>
    let step := apply mgr r
    apply_order_book_records_from_file apply step.1 rest
  | mgr, (.error _) :: _ => (mgr, true)

/-- The call pattern of `main` for one input file: `File::open` failure
(modelled by `none`) makes `apply_order_book_records_from_file` return
`false` before any record is read (lines 82-86). -/
def applyFromFile {T : Type}
    (apply : L2.Manager → T → L2.Manager × Except Errors Unit)
    (mgr : L2.Manager) (file : Option (List (Except String T))) :
    L2.Manager × Bool :=
  match file with
  | none => (mgr, false)
  | some items => apply_order_book_records_from_file apply mgr items

/-- `main` from `src/main.rs` (lines 134-164): process the snapshot file,
then the incremental file, returning `ExitCode::FAILURE` (1) as soon as one
of the two calls reports `false`, and `ExitCode::SUCCESS` (0) otherwise.
Each file is modelled as `none` when it cannot be opened and otherwise as
the list of record items its `BinaryFileIterator` yields. -/
def mainRun (snapFile : Option (List (Except String OrderBookSnapshot)))
    (updFile : Option (List (Except String L2.OrderBookUpdate))) : Nat :=
  let mgr0 : L2.Manager := { buffered_order_books := [] }
  let s := applyFromFile L2.Manager.apply_snapshot mgr0 snapFile
  if s.2 = false then 1
  else
    let u := applyFromFile L2.Manager.apply_update s.1 updFile
    if u.2 = false then 1 else 0

end Driver

namespace BD

/-- `BatchHeader` from `src/batched_deque/batched_deque.rs`. -/
structure BatchHeader where
  len : Nat
  is_removed : Bool
deriving DecidableEq, Repr

/-- `Item` from `src/batched_deque/batched_deque.rs`. -/
structure Item (α : Type) where
  data : α
  batch_header : Option BatchHeader
deriving DecidableEq, Repr

/-- `BatchedDequeState` from `src/batched_deque/batched_deque.rs` (the
`VecDeque` becomes a list; the preallocated capacity has no observable
effect). -/
structure BatchedDequeState (α : Type) where
  buffer : List (Item α)
  start_index : Nat
deriving DecidableEq, Repr

/-- `Batch` from `src/batched_deque/batched_deque.rs`: the handle data a
`BatchGuard` carries. -/
structure Batch where
  start_index : Nat
  len : Nat
deriving DecidableEq, Repr

/-- `BatchedDequeState::push_back_batch` on an iterator that yields `items`
without an error: each item is pushed with no header and then a header
`{len, is_removed: false}` is written into the first entry of the batch (the
write is skipped when the batch is empty); the returned handle is
`{start_index: pre-append length + start_index, len}`.  An iterator error
truncates the buffer back to the pre-append length — leaving the state
exactly as before the call — and propagates the error without issuing a
handle, so the error path needs no separate state transition. -/
def push_back_batch (s : BatchedDequeState α) (items : List α) :
    BatchedDequeState α × Batch :=
  let batch_start := s.buffer.length
  let pushed : List (Item α) :=
    match items with
    | [] => []
    | a :: rest =>
      ⟨a, some ⟨items.length, false⟩⟩ :: rest.map (fun x => ⟨x, none⟩)
  ({ buffer := s.buffer ++ pushed, start_index := s.start_index },
   { start_index := batch_start + s.start_index, len := items.length })

/-- `BatchedDequeState::convert_to_deque_index`. -/
def convert_to_deque_index (s : BatchedDequeState α) (index : Nat) :
    Option Nat :=
  if s.start_index ≤ index ∧ index < s.start_index + s.buffer.length then
    some (index - s.start_index)
  else none

/-- `BatchedDequeState::get`. -/
def get (s : BatchedDequeState α) (index : Nat) : Option α :=
  match convert_to_deque_index s index with
  | some deque_index => (s.buffer.get? deque_index).map (fun it => it.data)
  | none => none

/-- The `while` loop of `BatchedDequeState::cleanup_removed_batchs`, with an
explicit fuel.  Every iteration drains `header.len` entries from the front;
in every state the deque code can reach, headers carry the positive length
of their batch, so each iteration strictly shrinks the buffer and
`buffer.length` iterations always suffice (see `cleanup_removed_batchs`). -/
def cleanupFuel : Nat → BatchedDequeState α → BatchedDequeState α
  | 0, s => s
  | fuel + 1, s =>
    match s.buffer with
    | [] => s
    | front :: _ =>
      match front.batch_header with
      | some h =>
        if h.is_removed then
          cleanupFuel fuel
            { buffer := s.buffer.drop h.len,
              start_index := s.start_index + h.len }
        else s
      | none => s

/-- `BatchedDequeState::cleanup_removed_batchs`: repeatedly, while the front
entry carries a retired header, drain `header.len` entries from the front
and advance `start_index` by that much. -/
def cleanup_removed_batchs (s : BatchedDequeState α) : BatchedDequeState α :=
  cleanupFuel s.buffer.length s

/-- `BatchedDequeState::remove_batch`: no-op when the handle's start is
outside the live window or the entry there carries no header of the
handle's length; otherwise mark the header retired, and when the handle
referred to the front entry run the prefix drain. -/
def remove_batch (s : BatchedDequeState α) (batch : Batch) :
    BatchedDequeState α :=
  match convert_to_deque_index s batch.start_index with
  | none => s
  | some deque_index =>
    match s.buffer.get? deque_index with
    | none => s
    | some item =>
      match item.batch_header with
      | some h =>
        if h.len = batch.len then
          let s' : BatchedDequeState α :=
            { s with
              buffer := s.buffer.set deque_index
                { item with batch_header := some { h with is_removed := true } } }
          if deque_index = 0 then cleanup_removed_batchs s' else s'
        else s
      | none => s

/-- One operation against a batched-deque arena: append a batch, or release
the handle returned by the i-th append (`BatchGuard::drop`). -/
inductive ArenaOp (α : Type) where
  | append (items : List α)
  | release (handleIdx : Nat)

/-- A trace state: the arena state, the handles issued so far (in issuance
order), which of them have been released, and the total number of entries
ever appended. -/
structure ArenaTrace (α : Type) where
  state : BatchedDequeState α
  handles : List Batch
  released : List Bool
  total : Nat

/-- The empty arena with no issued handles. -/
def ArenaTrace.init {α : Type} : ArenaTrace α :=
  { state := { buffer := [], start_index := 0 },
    handles := [], released := [], total := 0 }

/-- Execute one arena operation.  A release of a handle that was never
issued does nothing (such a handle cannot exist in the Rust program). -/
def ArenaTrace.stepOp (t : ArenaTrace α) : ArenaOp α → ArenaTrace α
  | .append items =>
    let r := push_back_batch t.state items
    { state := r.1,
      handles := t.handles ++ [r.2],
      released := t.released ++ [false],
      total := t.total + items.length }
  | .release i =>
    match t.handles.get? i with
    | some b =>
      { t with state := remove_batch t.state b, released := t.released.set i true }
    | none => t

/-- Execute a sequence of arena operations from the empty arena. -/
def ArenaTrace.run (ops : List (ArenaOp α)) : ArenaTrace α :=
  ops.foldl ArenaTrace.stepOp ArenaTrace.init

end BD

namespace GD

/-- `GenerationalDeque` from
`src/generational_deque/generational_deque.rs`. -/
structure GenerationalDeque (α : Type) where
  buffer : List α
  start_index : Nat
deriving DecidableEq, Repr

/-- `GenerationalDeque::end_index`. -/
def end_index (d : GenerationalDeque α) : Nat :=
  d.start_index + d.buffer.length

/-- `GenerationalDeque::get`: present only for absolute indices inside
`[start_index, end_index)`. -/
def get (d : GenerationalDeque α) (index : Nat) : Option α :=
  if d.start_index ≤ index ∧ index < end_index d then
    d.buffer.get? (index - d.start_index)
  else none

/-- The `while` loop of
`GenerationalDeque::remove_expired_generations`: pop front entries whose
generation is `≤ generation`, advancing `start_index` by one each time.
The `Item` trait's `generation()` accessor is passed as the function
`gen`. -/
def removeExpiredGo (gen : α → Nat) (generation : Nat) :
    List α → Nat → GenerationalDeque α
  | [], start => { buffer := [], start_index := start }
  | x :: t, start =>
    if gen x ≤ generation then removeExpiredGo gen generation t (start + 1)
    else { buffer := x :: t, start_index := start }

/-- `GenerationalDeque::remove_expired_generations`. -/
def remove_expired_generations (gen : α → Nat) (generation : Nat)
    (d : GenerationalDeque α) : GenerationalDeque α :=
  removeExpiredGo gen generation d.buffer d.start_index

/-- `GenerationGuard` from `src/generational_deque/generation_guard.rs`.
The `Option<Rc<RefCell<GenerationalDeque>>>` is modelled by an optional
deque value: `for_each` only reads through the shared reference, so the
value it observes is the deque's current state; `drop_ownership` sets the
option to `none`. -/
structure GenerationGuard (α : Type) where
  deque : Option (GenerationalDeque α)
  start_index : Nat
  count : Nat
  generation : Nat

/-- The `for i in 0..count` loop of `GenerationGuard::for_each`, with the
visitor modelled as a fold `f` over an accumulator (the Rust visitor is an
`FnMut` closure): an index whose entry is present is visited, an absent
index is skipped, and a visitor error aborts the loop. -/
def forEachGo (d : GenerationalDeque α) (f : σ → α → Except ε σ) :
    Nat → Nat → σ → Except ε σ
  | _, 0, acc => .ok acc
  | idx, n + 1, acc =>
    match get d idx with
    | some item =>
      match f acc item with
      | .error e => .error e
      | .ok acc' => forEachGo d f (idx + 1) n acc'
    | none => forEachGo d f (idx + 1) n acc

/-- `GenerationGuard::for_each` from
`src/generational_deque/generation_guard.rs`: when ownership has been
dropped (`deque = none`) the traversal body is skipped entirely and `Ok` is
returned. -/
def GenerationGuard.for_each (g : GenerationGuard α)
    (f : σ → α → Except ε σ) (init : σ) : Except ε σ :=
  match g.deque with
  | some d => forEachGo d f g.start_index g.count init
  | none => .ok init

/-- The entries of the index range `[start, start + count)` that are present
in the deque, in ascending index order. -/
def presentItems (d : GenerationalDeque α) (start count : Nat) : List α :=
  (List.range count).filterMap (fun i => get d (start + i))

end GD

namespace Parsing

/-- `MAX_NUM_UPDATES` from `src/parsing/order_book_update.rs`. -/
def MAX_NUM_UPDATES : Nat := 100000

/-- `Level` from `src/parsing/order_book_update.rs` at the wire level.
`price` holds the eight price bytes decoded as a little-endian number:
`f64::from_le_bytes` is a bijection between 64-bit patterns and `f64`
values, and the parser never interprets the price, so the raw pattern is a
faithful representation. -/
structure Level where
  side : Nat
  price : Nat
  qty : Nat
deriving DecidableEq, Repr

/-- `ParserError` from `src/parsing/parser.rs`.  The `io::Error` payload of
the `Io` constructor is never inspected by the modelled code and is
dropped. -/
inductive ParserError where
  | ExpectedEof
  | Custom (msg : String)
  | Io
deriving DecidableEq, Repr

/-- `Read::read_exact` on a byte list: take `n` bytes or fail (on a pure
in-memory stream the only read failure is running out of bytes, which
`read_exact` reports as `UnexpectedEof`). -/
def readBytes (n : Nat) (s : List Nat) : Option (List Nat × List Nat) :=
  if n ≤ s.length then some (s.take n, s.drop n) else none

/-- `u64::from_le_bytes`: the little-endian value of a byte list. -/
def leVal (bs : List Nat) : Nat :=
  bs.foldr (fun b acc => b + 256 * acc) 0

/-- `u64::to_le_bytes` (used to build concrete wire inputs): the `n`
little-endian base-256 digits of `v`. -/
def leBytes : Nat → Nat → List Nat
  | 0, _ => []
  | n + 1, v => v % 256 :: leBytes n (v / 256)

/-- Read one little-endian `u64` field. -/
def readU64 (s : List Nat) : Option (Nat × List Nat) :=
  match readBytes 8 s with
  | some (bs, rest) => some (leVal bs, rest)
  | none => none

/-- `LevelParser::read` from `src/parsing/order_book_update.rs`: one byte of
side, eight bytes of price, eight bytes of quantity; any short read is an
`Io` error. -/
def levelRead (s : List Nat) : Except ParserError (Level × List Nat) :=
  match readBytes 1 s with
  | none => .error .Io
  | some (sb, s1) =>
    match readBytes 8 s1 with
    | none => .error .Io
    | some (pb, s2) =>
      match readBytes 8 s2 with
      | none => .error .Io
      | some (qb, s3) =>
        .ok ({ side := leVal sb, price := leVal pb, qty := leVal qb }, s3)

/-- The `(0..num_updates).map(|_| LevelParser.read(reader))` iterator as
consumed by `push_back_batch`: parse `n` consecutive levels, the first
error aborting (which makes `push_back_batch` truncate its partial batch
and propagate the error). -/
def parseLevels : Nat → List Nat → Except ParserError (List Level × List Nat)
  | 0, s => .ok ([], s)
  | n + 1, s =>
    match levelRead s with
    | .error e => .error e
    | .ok (lvl, s') =>
      match parseLevels n s' with
      | .error e => .error e
      | .ok (lvls, s'') => .ok (lvl :: lvls, s'')

/-- `OrderBookUpdateParser` from `src/parsing/order_book_update.rs`: the
per-security arenas. -/
structure OrderBookUpdateParser where
  security_id_to_deque : List (Nat × BD.BatchedDequeState Level)
deriving DecidableEq, Repr

/-- The update record `OrderBookUpdateParser::read` returns; `updates` is
the batch handle of the appended batch (the guard also holds a reference to
the security's arena). -/
structure OrderBookUpdate where
  timestamp : Nat
  seq_no : Nat
  security_id : Nat
  updates : BD.Batch
deriving DecidableEq, Repr

/-- `OrderBookUpdateParser::read` from `src/parsing/order_book_update.rs`
(lines 68-126): read the four header fields (`UnexpectedEof` on the first
field is a clean end of stream, reported as `ExpectedEof`), reject
`num_updates > MAX_NUM_UPDATES` with a `Custom` error, then append
`num_updates` parsed levels into the security's arena
(`entry(security_id).or_insert_with(BatchedDeque::new)`) and return the
record owning the resulting batch handle. -/
def OrderBookUpdateParser.read (p : OrderBookUpdateParser) (s : List Nat) :
    Except ParserError (OrderBookUpdate × OrderBookUpdateParser × List Nat) :=
  match readU64 s with
  | none => .error .ExpectedEof
  | some (timestamp, s1) =>
  match readU64 s1 with
  | none => .error .Io
  | some (seq_no, s2) =>
  match readU64 s2 with
  | none => .error .Io
  | some (security_id, s3) =>
  match readU64 s3 with
  | none => .error .Io
  | some (num_updates, s4) =>
  if num_updates > MAX_NUM_UPDATES then
    .error (.Custom "Number of updates is too large")
  else
    let deque :=
      match listLookup security_id p.security_id_to_deque with
      | some d => d
      | none => { buffer := [], start_index := 0 }
    match parseLevels num_updates s4 with
    | .error e => .error e
    | .ok (lvls, s5) =>
      let r := BD.push_back_batch deque lvls
      .ok ({ timestamp := timestamp, seq_no := seq_no,
             security_id := security_id, updates := r.2 },
           { security_id_to_deque :=
              listInsert security_id r.1 p.security_id_to_deque }, s5)

end Parsing

namespace GD

theorem presentItems_zero (d : GenerationalDeque α) (start : Nat) :
    presentItems d start 0 = [] := by
  simp [presentItems]

theorem presentItems_succ (d : GenerationalDeque α) (start n : Nat) :
    presentItems d start (n + 1) =
      match get d start with
      | some a => a :: presentItems d (start + 1) n
      | none => presentItems d (start + 1) n := by
  have hfun : (fun i => get d (start + Nat.succ i)) =
      (fun i => get d (start + 1 + i)) := by
    funext i
    congr 1
    omega
  unfold presentItems
  rw [List.range_succ_eq_map, List.filterMap_cons, List.filterMap_map]
  simp only [Nat.add_zero, Function.comp_def, hfun]
  cases h : get d start <;> simp [h]

theorem forEachGo_pure {α σ ε : Type} (d : GenerationalDeque α)
    (f : σ → α → σ) :
    ∀ (n start : Nat) (init : σ),
      forEachGo d (fun acc a => (Except.ok (f acc a) : Except ε σ)) start n init
        = Except.ok ((presentItems d start n).foldl f init) := by
  intro n
  induction n with
  | zero =>
    intro start init
    simp [forEachGo, presentItems_zero]
  | succ n ih =>
    intro start init
    rw [presentItems_succ]
    cases h : get d start with
    | some a => simp [forEachGo, h, ih]
    | none => simp [forEachGo, h, ih]

theorem get_lt_start (d : GenerationalDeque α) (index : Nat)
    (h : index < d.start_index) : get d index = none := by
  have : ¬ (d.start_index ≤ index ∧ index < end_index d) := by omega
  simp [get, this]

end GD

/-- C10: for a `GenerationGuard` whose visitor never errors, `for_each`
returns `Ok` and invokes the visitor exactly on the entries of
`[start_index, start_index + count)` that are still present in the
underlying `GenerationalDeque`, in ascending index order (`presentItems`);
when ownership has been dropped the whole range is skipped and `Ok` is
returned; and indices evicted by a generation cleanup (below `start_index`)
are absent, hence skipped silently. -/
theorem C10_for_each_present :
    (∀ (α σ ε : Type) (g : GD.GenerationGuard α) (d : GD.GenerationalDeque α)
        (f : σ → α → σ) (init : σ),
        g.deque = some d →
        GD.GenerationGuard.for_each g
            (fun acc a => (Except.ok (f acc a) : Except ε σ)) init =
          Except.ok ((GD.presentItems d g.start_index g.count).foldl f init)) ∧
    (∀ (α σ ε : Type) (g : GD.GenerationGuard α) (f : σ → α → Except ε σ)
        (init : σ),
        g.deque = none → GD.GenerationGuard.for_each g f init = Except.ok init) ∧
    (∀ (α : Type) (d : GD.GenerationalDeque α) (index : Nat),
        index < d.start_index → GD.get d index = none) := by
  refine ⟨?_, ?_, ?_⟩
  · intro α σ ε g d f init hg
    rw [GD.GenerationGuard.for_each, hg]
    exact GD.forEachGo_pure d f g.count g.start_index init
  · intro α σ ε g f init hg
    rw [GD.GenerationGuard.for_each, hg]
  · intro α d index h
    exact GD.get_lt_start d index h

/-- A deque holding entries 4 and 5 at absolute indices 2 and 3 (indices 0
and 1 evicted). -/
def c10deque : GD.GenerationalDeque Nat :=
  { buffer := [4, 5], start_index := 2 }

/-- A guard over the range `[1, 5)` of `c10deque`: indices 1 and 4 are
absent, 2 and 3 are present. -/
def c10guard : GD.GenerationGuard Nat :=
  { deque := some c10deque, start_index := 1, count := 4, generation := 0 }

theorem C10_for_each_present_witness :
    GD.GenerationGuard.for_each c10guard
        (fun acc a => (Except.ok (acc + a) : Except Unit Nat)) 0 =
      Except.ok 9 := by
  rw [C10_for_each_present.1 Nat Nat Unit c10guard c10deque
    (fun acc a => acc + a) 0 rfl]
  decide

namespace Driver

theorem apply_records_snd_true {T : Type}
    (apply : L2.Manager → T → L2.Manager × Except Errors Unit) :
    ∀ (items : List (Except String T)) (mgr : L2.Manager),
      (apply_order_book_records_from_file apply mgr items).2 = true := by
  intro items
  induction items with
  | nil => intro mgr; rfl
  | cons hd t ih =>
    intro mgr
    cases hd with
    | ok r => simp [apply_order_book_records_from_file, ih]
    | error e => rfl

end Driver

/-- C9: the driver does NOT exit nonzero on decode failures.  A parser error
terminates processing of that file (the error item makes
`apply_order_book_records_from_file` return immediately) but the function
returns `true` on that path, so `main` goes on and exits 0 whenever both
files could be opened — regardless of any decode errors in either stream.
This contradicts the claim, which requires a nonzero exit code. -/
theorem C9_driver_exit_zero_on_parser_error :
    (∀ (T : Type) (apply : L2.Manager → T → L2.Manager × Except Errors Unit)
        (mgr : L2.Manager) (msg : String) (rest : List (Except String T)),
        Driver.apply_order_book_records_from_file apply mgr
          (Except.error msg :: rest) = (mgr, true)) ∧
    (∀ (snapItems : List (Except String OrderBookSnapshot))
        (updItems : List (Except String L2.OrderBookUpdate)),
        Driver.mainRun (some snapItems) (some updItems) = 0) := by
  refine ⟨?_, ?_⟩
  · intro T apply mgr msg rest
    rfl
  · intro snapItems updItems
    simp [Driver.mainRun, Driver.applyFromFile, Driver.apply_records_snd_true]

namespace Parsing

theorem leBytes_length (n : Nat) : ∀ v : Nat, (leBytes n v).length = n := by
  induction n with
  | zero => intro v; rfl
  | succ n ih => intro v; simp [leBytes, ih]

theorem leVal_leBytes (n : Nat) : ∀ v : Nat, leVal (leBytes n v) = v % 256 ^ n := by
  induction n with
  | zero => intro v; simp [leBytes, leVal, Nat.mod_one]
  | succ n ih =>
    intro v
    have hpow : 256 ^ (n + 1) = 256 * 256 ^ n := by
      rw [pow_succ, Nat.mul_comm]
    rw [leBytes, hpow, Nat.mod_mul]
    have ih' := ih (v / 256)
    simp only [leVal] at ih' ⊢
    simp [List.foldr_cons, ih']

theorem readU64_leBytes (v : Nat) (rest : List Nat) :
    readU64 (leBytes 8 v ++ rest) = some (v % 256 ^ 8, rest) := by
  have hlen : (leBytes 8 v).length = 8 := leBytes_length 8 v
  have h8 : 8 ≤ (leBytes 8 v ++ rest).length := by
    simp [hlen]
  have htake : (leBytes 8 v ++ rest).take 8 = leBytes 8 v := by
    rw [← hlen]
    exact List.take_left _ _
  have hdrop : (leBytes 8 v ++ rest).drop 8 = rest := by
    rw [← hlen]
    exact List.drop_left _ _
  have hrb : readBytes 8 (leBytes 8 v ++ rest) = some (leBytes 8 v, rest) := by
    rw [readBytes, if_pos h8, htake, hdrop]
  simp [readU64, hrb, leVal_leBytes]

theorem levelRead_ok (s : List Nat) (h : 17 ≤ s.length) :
    ∃ lvl, levelRead s = .ok (lvl, s.drop 17) := by
  have h1 : 1 ≤ s.length := by omega
  have h8 : 8 ≤ (s.drop 1).length := by simp; omega
  have h8' : 8 ≤ ((s.drop 1).drop 8).length := by simp; omega
  have e1 : readBytes 1 s = some (s.take 1, s.drop 1) := by
    rw [readBytes, if_pos h1]
  have e2 : readBytes 8 (s.drop 1) =
      some ((s.drop 1).take 8, (s.drop 1).drop 8) := by
    rw [readBytes, if_pos h8]
  have e3 : readBytes 8 ((s.drop 1).drop 8) =
      some (((s.drop 1).drop 8).take 8, ((s.drop 1).drop 8).drop 8) := by
    rw [readBytes, if_pos h8']
  refine ⟨{ side := leVal (s.take 1), price := leVal ((s.drop 1).take 8),
            qty := leVal (((s.drop 1).drop 8).take 8) }, ?_⟩
  simp only [levelRead, e1, e2, e3]
  rw [List.drop_drop, List.drop_drop]

theorem parseLevels_ok (n : Nat) :
    ∀ s : List Nat, 17 * n ≤ s.length →
      ∃ lvls, parseLevels n s = .ok (lvls, s.drop (17 * n)) ∧
        lvls.length = n := by
  induction n with
  | zero => intro s h; exact ⟨[], by simp [parseLevels], rfl⟩
  | succ n ih =>
    intro s h
    have h17 : 17 ≤ s.length := by omega
    obtain ⟨lvl, hlvl⟩ := levelRead_ok s h17
    have hrest : 17 * n ≤ (s.drop 17).length := by simp; omega
    obtain ⟨lvls, hp, hlen⟩ := ih (s.drop 17) hrest
    refine ⟨lvl :: lvls, ?_, by simp [hlen]⟩
    simp only [parseLevels, hlvl, hp]
    rw [List.drop_drop]
    have h17n : 17 + 17 * n = 17 * (n + 1) := by ring
    rw [h17n]

/-- The wire image of one update record: the four little-endian header
fields followed by the entry bytes. -/
def mkUpdateStream (ts seq sec v : Nat) (rest : List Nat) : List Nat :=
  leBytes 8 ts ++ (leBytes 8 seq ++ (leBytes 8 sec ++ (leBytes 8 v ++ rest)))

theorem read_mkUpdateStream (p : OrderBookUpdateParser)
    (ts seq sec v : Nat) (rest : List Nat)
    (hts : ts < 256 ^ 8) (hseq : seq < 256 ^ 8) (hsec : sec < 256 ^ 8)
    (hv : v < 256 ^ 8) :
    OrderBookUpdateParser.read p (mkUpdateStream ts seq sec v rest) =
      if v > MAX_NUM_UPDATES then
        .error (.Custom "Number of updates is too large")
      else
        match parseLevels v rest with
        | .error e => .error e
        | .ok (lvls, s5) =>
          let deque :=
            match listLookup sec p.security_id_to_deque with
            | some d => d
            | none => { buffer := [], start_index := 0 }
          let r := BD.push_back_batch deque lvls
          .ok ({ timestamp := ts, seq_no := seq, security_id := sec,
                 updates := r.2 },
               { security_id_to_deque :=
                  listInsert sec r.1 p.security_id_to_deque }, s5) := by
  simp only [OrderBookUpdateParser.read, mkUpdateStream, readU64_leBytes,
    Nat.mod_eq_of_lt hts, Nat.mod_eq_of_lt hseq, Nat.mod_eq_of_lt hsec,
    Nat.mod_eq_of_lt hv]

/-- Projection of a successful `read`: the record's `seq_no`, the length of
the batch it owns, and the number of unread bytes. -/
def readSummary
    (r : Except ParserError (OrderBookUpdate × OrderBookUpdateParser × List Nat)) :
    Option (Nat × Nat × Nat) :=
  match r with
  | .ok (u, _, rest) => some (u.seq_no, u.updates.len, rest.length)
  | .error _ => none

end Parsing

/-- C8 (amended): the update parser enforces `num_updates ≤ 10^5`, not
`< 10^5`: a record whose decoded `num_updates` exceeds `10^5` is rejected
with a `Custom` parser error, and a record with `num_updates ≤ 10^5` (and
enough entry bytes) is returned, reading exactly `num_updates` entries. -/
theorem C8_num_updates_bound :
    (∀ (p : Parsing.OrderBookUpdateParser) (ts seq sec v : Nat)
        (rest : List Nat),
        ts < 256 ^ 8 → seq < 256 ^ 8 → sec < 256 ^ 8 → v < 256 ^ 8 →
        Parsing.MAX_NUM_UPDATES < v →
        Parsing.OrderBookUpdateParser.read p
            (Parsing.mkUpdateStream ts seq sec v rest) =
          .error (.Custom "Number of updates is too large")) ∧
    (∀ (p : Parsing.OrderBookUpdateParser) (ts seq sec v : Nat)
        (rest : List Nat),
        ts < 256 ^ 8 → seq < 256 ^ 8 → sec < 256 ^ 8 → v < 256 ^ 8 →
        v ≤ Parsing.MAX_NUM_UPDATES → 17 * v ≤ rest.length →
        ∃ (b : BD.Batch) (p' : Parsing.OrderBookUpdateParser),
          Parsing.OrderBookUpdateParser.read p
              (Parsing.mkUpdateStream ts seq sec v rest) =
            .ok ({ timestamp := ts, seq_no := seq, security_id := sec,
                   updates := b }, p', rest.drop (17 * v)) ∧
          b.len = v) := by
  constructor
  · intro p ts seq sec v rest hts hseq hsec hv hbig
    rw [Parsing.read_mkUpdateStream p ts seq sec v rest hts hseq hsec hv]
    rw [if_pos hbig]
  · intro p ts seq sec v rest hts hseq hsec hv hle hbytes
    rw [Parsing.read_mkUpdateStream p ts seq sec v rest hts hseq hsec hv]
    rw [if_neg (by omega)]
    obtain ⟨lvls, hp, hlen⟩ := Parsing.parseLevels_ok v rest hbytes
    rw [hp]
    exact ⟨_, _, rfl, by simp [BD.push_back_batch, hlen]⟩

/-- C8 counterexample: a record whose `num_updates` field decodes to exactly
`10^5` — which the claim says must produce a parser error — is accepted:
`read` returns the record (seq_no 2) with a batch of exactly `10^5` entries
and consumes the whole stream. -/
theorem C8_exact_bound_accepted :
    Parsing.readSummary
        (Parsing.OrderBookUpdateParser.read { security_id_to_deque := [] }
          (Parsing.mkUpdateStream 1 2 3 100000
            (List.replicate (17 * 100000) 0))) =
      some (2, 100000, 0) := by
  rw [Parsing.read_mkUpdateStream _ 1 2 3 100000 _ (by norm_num) (by norm_num)
    (by norm_num) (by norm_num)]
  rw [if_neg (by norm_num [Parsing.MAX_NUM_UPDATES])]
  have hlen17 :
      17 * 100000 ≤ (List.replicate (17 * 100000) (0 : Nat)).length := by
    rw [List.length_replicate]
  obtain ⟨lvls, hp, hlen⟩ :=
    Parsing.parseLevels_ok 100000 (List.replicate (17 * 100000) 0) hlen17
  rw [hp]
  simp only [Parsing.readSummary, BD.push_back_batch]
  rw [List.length_drop, List.length_replicate, hlen]

namespace BD

theorem remove_batch_out_of_range {α : Type} (s : BatchedDequeState α)
    (b : Batch)
    (h : b.start_index < s.start_index ∨
      s.start_index + s.buffer.length ≤ b.start_index) :
    remove_batch s b = s := by
  have hc : convert_to_deque_index s b.start_index = none := by
    simp only [convert_to_deque_index]
    rw [if_neg (by omega)]
  simp [remove_batch, hc]

/-- An item with its header re-written as retired (the `batch_header.is_removed = true`
write of `remove_batch`). -/
def markItem {α : Type} (item : Item α) (hdr : BatchHeader) : Item α :=
  { data := item.data, batch_header := some { len := hdr.len, is_removed := true } }

theorem remove_batch_header_mismatch {α : Type} (s : BatchedDequeState α)
    (b : Batch) (d : Nat) (item : Item α)
    (hidx : convert_to_deque_index s b.start_index = some d)
    (hget : s.buffer.get? d = some item)
    (hhdr : ∀ h, item.batch_header = some h → h.len ≠ b.len) :
    remove_batch s b = s := by
  have hget' : s.buffer[d]? = some item := by simpa using hget
  cases hh : item.batch_header with
  | none => simp [remove_batch, hidx, hget', hh]
  | some hdr => simp [remove_batch, hidx, hget', hh, hhdr hdr hh]

theorem remove_batch_mark_nonfront {α : Type} (s : BatchedDequeState α)
    (b : Batch) (d : Nat) (item : Item α) (hdr : BatchHeader)
    (hidx : convert_to_deque_index s b.start_index = some d)
    (hget : s.buffer.get? d = some item)
    (hhdr : item.batch_header = some hdr)
    (hlen : hdr.len = b.len) (hd0 : d ≠ 0) :
    remove_batch s b =
      { s with buffer := s.buffer.set d (markItem item hdr) } := by
  have hget' : s.buffer[d]? = some item := by simpa using hget
  simp [remove_batch, hidx, hget', hhdr, hlen, hd0, markItem]

theorem convert_ne_start {α : Type} (s : BatchedDequeState α) (idx d : Nat)
    (hc : convert_to_deque_index s idx = some d) (h : idx ≠ s.start_index) :
    d ≠ 0 := by
  revert hc
  unfold convert_to_deque_index
  split
  · intro hc
    have hd : idx - s.start_index = d := by
      injection hc
    omega
  · intro hc
    exact absurd hc (by simp)

theorem remove_batch_nonfront {α : Type} (s : BatchedDequeState α) (b : Batch)
    (h : b.start_index ≠ s.start_index) :
    (remove_batch s b).buffer.length = s.buffer.length ∧
      (remove_batch s b).start_index = s.start_index := by
  cases hc : convert_to_deque_index s b.start_index with
  | none => simp [remove_batch, hc]
  | some d =>
    have hd0 : d ≠ 0 := convert_ne_start s b.start_index d hc h
    cases hget : s.buffer[d]? with
    | none => simp [remove_batch, hc, hget]
    | some item =>
      cases hh : item.batch_header with
      | none => simp [remove_batch, hc, hget, hh]
      | some hdr =>
        by_cases hlen : hdr.len = b.len
        · simp [remove_batch, hc, hget, hh, hlen, hd0, List.length_set]
        · simp [remove_batch, hc, hget, hh, hlen]

end BD

/-- The C5 scenario: an empty arena receiving batches of lengths 3, 4 and 2. -/
def c5arena0 : BD.BatchedDequeState Nat := { buffer := [], start_index := 0 }

/-- Append batch A (length 3). -/
def c5A := BD.push_back_batch c5arena0 [1, 2, 3]

/-- Append batch B (length 4). -/
def c5B := BD.push_back_batch c5A.1 [4, 5, 6, 7]

/-- Append batch C (length 2). -/
def c5C := BD.push_back_batch c5B.1 [8, 9]

/-- Release B first: B is mid-arena. -/
def c5relB := BD.remove_batch c5C.1 c5B.2

/-- Then release A: the front batch. -/
def c5relA := BD.remove_batch c5relB c5A.2

/-- Then release C. -/
def c5relC := BD.remove_batch c5relA c5C.2

/-- C5: `release` is a no-op for a handle whose start lies outside
`[B, B + len)`; inside the window it marks the batch retired only when the
entry there carries a header of the handle's length (otherwise a no-op);
only a release of the front batch (`start = B`) can drain — a non-front
release preserves the buffer length and the base; and the A/B/C scenario:
releasing B (mid-arena) drains nothing, releasing A drains 3+4=7 entries
advancing the base to 7, releasing C drains the remaining 2 leaving an
empty buffer with base 9. -/
theorem C5_remove_batch_contract :
    (∀ (α : Type) (s : BD.BatchedDequeState α) (b : BD.Batch),
        b.start_index < s.start_index ∨
          s.start_index + s.buffer.length ≤ b.start_index →
        BD.remove_batch s b = s) ∧
    (∀ (α : Type) (s : BD.BatchedDequeState α) (b : BD.Batch) (d : Nat)
        (item : BD.Item α),
        BD.convert_to_deque_index s b.start_index = some d →
        s.buffer.get? d = some item →
        (∀ h, item.batch_header = some h → h.len ≠ b.len) →
        BD.remove_batch s b = s) ∧
    (∀ (α : Type) (s : BD.BatchedDequeState α) (b : BD.Batch) (d : Nat)
        (item : BD.Item α) (hdr : BD.BatchHeader),
        BD.convert_to_deque_index s b.start_index = some d →
        s.buffer.get? d = some item →
        item.batch_header = some hdr → hdr.len = b.len → d ≠ 0 →
        BD.remove_batch s b =
          { s with buffer := s.buffer.set d (BD.markItem item hdr) }) ∧
    (∀ (α : Type) (s : BD.BatchedDequeState α) (b : BD.Batch),
        b.start_index ≠ s.start_index →
        (BD.remove_batch s b).buffer.length = s.buffer.length ∧
          (BD.remove_batch s b).start_index = s.start_index) ∧
    (c5A.2 = { start_index := 0, len := 3 } ∧
      c5B.2 = { start_index := 3, len := 4 } ∧
      c5C.2 = { start_index := 7, len := 2 } ∧
      c5relB.buffer.length = 9 ∧ c5relB.start_index = 0 ∧
      c5relA.buffer.length = 2 ∧ c5relA.start_index = 7 ∧
      c5relC.buffer = [] ∧ c5relC.start_index = 9) := by
  refine ⟨?_, ?_, ?_, ?_, ?_⟩
  · intro α s b h
    exact BD.remove_batch_out_of_range s b h
  · intro α s b d item h1 h2 h3
    exact BD.remove_batch_header_mismatch s b d item h1 h2 h3
  · intro α s b d item hdr h1 h2 h3 h4 h5
    exact BD.remove_batch_mark_nonfront s b d item hdr h1 h2 h3 h4 h5
  · intro α s b h
    exact BD.remove_batch_nonfront s b h
  · decide

/-- An update with no entries for the C4 scenario (the scenario constrains
only sequence numbers). -/
def c4u (seq : Nat) : OB.OrderBookUpdate :=
  { timestamp := 200 + seq, seq_no := seq, security_id := 1001, updates := [] }

/-- A book at sequence number 100 for the C4 scenario. -/
def c4book : OB.OrderBook :=
  { timestamp := 5, seq_no := 100, security_id := 1001,
    bids := [], asks := [], bid_updates := [], ask_updates := [] }

/-- The C4 scenario's buffered book. -/
def c4bb0 : OB.BufferedOrderBook :=
  { order_book := c4book, pending_updates := [] }

/-- Apply seq 102 to the C4 book. -/
def c4s1 := OB.BufferedOrderBook.apply_update c4bb0 (c4u 102)

/-- Then seq 103. -/
def c4s2 := OB.BufferedOrderBook.apply_update c4s1.1 (c4u 103)

/-- Then seq 105. -/
def c4s3 := OB.BufferedOrderBook.apply_update c4s2.1 (c4u 105)

/-- Then the gap-filling seq 101. -/
def c4s4 := OB.BufferedOrderBook.apply_update c4s3.1 (c4u 101)

/-- An L2 book at sequence number 100, for the L2 catch-up divergence. -/
def c4l2book : L2.OrderBook :=
  { timestamp := 5, seq_no := 100, security_id := 1001,
    bids := [], asks := [], bid_updates := [], ask_updates := [] }

/-- A pending update at seq 101 whose single entry fails validation (its
price fails float-to-decimal conversion); gapped updates are buffered
unvalidated, so such an entry is reachable. -/
def c4uBad : L2.OrderBookUpdate :=
  { timestamp := 206, seq_no := 101, security_id := 1001,
    updates := [⟨0, none, 5⟩] }

/-- A stale pending update at seq 99, below the book's sequence number. -/
def c4uOld : L2.OrderBookUpdate :=
  { timestamp := 199, seq_no := 99, security_id := 1001, updates := [] }

/-- The L2 catch-up run on a failing entry at `seq_no + 1`. -/
def c4l2r1 := L2.try_apply_pending_updates c4l2book [(101, c4uBad)]

/-- The L2 catch-up run on a single stale entry. -/
def c4l2r2 := L2.try_apply_pending_updates c4l2book [(99, c4uOld)]

/-- C4: the `order_book` variant's catch-up loop satisfies the claimed
recurrence — with `n = seq_no + 1`, while the pending map contains `n` it
removes that entry and applies it, stopping at the first absent key or the
first failed apply; it runs after every successful apply; and the claimed
scenario holds: from seq 100, updates 102, 103, 105 each return
`SequenceNumberGap` growing the pending map to 3, then seq 101 returns
`Ok`, leaves the book at seq 103 and leaves exactly the seq-105 update
pending.  The `l2_order_book` variant, also cited by the claim, violates
the claimed loop: a failing pending entry at `seq_no + 1` is retained in
the map (the claimed loop removes it before applying, which here would
leave the map empty), and a stale entry below `seq_no + 1` is walked and
erased (the claimed loop stops at the absent key `seq_no + 1` — the lookup
is `none` — and leaves the map untouched). -/
theorem C4_catch_up :
    (∀ (b : OB.OrderBook) (pending : List (Nat × OB.OrderBookUpdate)),
        OB.try_apply_pending_updates b pending =
          match listLookup (b.seq_no + 1) pending with
          | some u =>
            match OB.apply_update b u with
            | (b', .ok _) =>
              OB.try_apply_pending_updates b'
                (listEraseKey (b.seq_no + 1) pending)
            | (b', .error _) => (b', listEraseKey (b.seq_no + 1) pending)
          | none => (b, pending)) ∧
    (∀ (bb : OB.BufferedOrderBook) (u : OB.OrderBookUpdate)
        (b' : OB.OrderBook),
        OB.apply_update bb.order_book u = (b', .ok ()) →
        OB.BufferedOrderBook.apply_update bb u =
          ({ order_book :=
              (OB.try_apply_pending_updates b' bb.pending_updates).1,
             pending_updates :=
              (OB.try_apply_pending_updates b' bb.pending_updates).2 },
           .ok ())) ∧
    (c4s1.2 = .error .SequenceNumberGap ∧
      c4s1.1.pending_updates.length = 1 ∧
      c4s2.2 = .error .SequenceNumberGap ∧
      c4s2.1.pending_updates.length = 2 ∧
      c4s3.2 = .error .SequenceNumberGap ∧
      c4s3.1.pending_updates.length = 3 ∧
      c4s4.2 = .ok () ∧
      c4s4.1.order_book.seq_no = 103 ∧
      c4s4.1.pending_updates = [(105, c4u 105)]) ∧
    (c4l2r1.2 = [(101, c4uBad)] ∧
      listEraseKey (c4l2book.seq_no + 1) [(101, c4uBad)] =
        ([] : List (Nat × L2.OrderBookUpdate)) ∧
      c4l2r2.2 = [] ∧
      listLookup (c4l2book.seq_no + 1) [(99, c4uOld)] = none) := by
  refine ⟨?_, ?_, ?_, ?_⟩
  · intro b pending
    exact OB.try_apply_pending_updates_eq b pending
  · intro bb u b' happ
    simp [OB.BufferedOrderBook.apply_update, happ]
  · decide
  · decide

namespace OB

theorem tryApplyFuel_length_le :
    ∀ (fuel : Nat) (b : OrderBook) (p : List (Nat × OrderBookUpdate)),
      (tryApplyFuel fuel b p).2.length ≤ p.length := by
  intro fuel
  induction fuel with
  | zero => intro b p; exact Nat.le_refl _
  | succ fuel ih =>
    intro b p
    cases h : listLookup (b.seq_no + 1) p with
    | none => simp [tryApplyFuel, h]
    | some u =>
      cases happ : apply_update b u with
      | mk b' res =>
        cases res with
        | ok v =>
          cases v
          simp only [tryApplyFuel, h, happ]
          exact Nat.le_trans (ih b' _) (listEraseKey_length_le _ _)
        | error e =>
          simp only [tryApplyFuel, h, happ]
          exact listEraseKey_length_le _ _

theorem try_apply_length_le (b : OrderBook)
    (p : List (Nat × OrderBookUpdate)) :
    (try_apply_pending_updates b p).2.length ≤ p.length :=
  tryApplyFuel_length_le p.length b p

end OB

namespace L2

theorem try_apply_length_le2 (b : OrderBook)
    (p : List (Nat × OrderBookUpdate)) :
    (try_apply_pending_updates b p).2.length ≤ p.length := by
  unfold try_apply_pending_updates
  cases hgo : tryApplyGo b p none with
  | mk b' last =>
    cases last with
    | none => exact Nat.le_refl _
    | some k =>
      simp only
      exact List.length_filter_le _ _

end L2

/-- C7: the pending map never exceeds its capacity.  For both buffered-book
variants: starting from a pending map within capacity, any `apply_update` or
`apply_snapshot` leaves it within capacity, and a `SequenceNumberGap` result
leaves the gapped update's `seq_no` present in the map (the map having first
been reduced — cleared in the `order_book` variant, oldest key dropped in
the `l2_order_book` variant — so the new entry fits). -/
theorem C7_pending_capacity :
    (∀ (bb : OB.BufferedOrderBook) (u : OB.OrderBookUpdate),
        bb.pending_updates.length ≤ OB.MAX_PENDING_UPDATES →
        (OB.BufferedOrderBook.apply_update bb u).1.pending_updates.length ≤
            OB.MAX_PENDING_UPDATES ∧
          ((OB.BufferedOrderBook.apply_update bb u).2 =
              .error .SequenceNumberGap →
            listLookup u.seq_no
                (OB.BufferedOrderBook.apply_update bb u).1.pending_updates =
              some u)) ∧
    (∀ (bb : OB.BufferedOrderBook) (s : OrderBookSnapshot),
        bb.pending_updates.length ≤ OB.MAX_PENDING_UPDATES →
        (OB.BufferedOrderBook.apply_snapshot bb s).1.pending_updates.length ≤
          OB.MAX_PENDING_UPDATES) ∧
    (∀ (bb : L2.BufferedOrderBook) (u : L2.OrderBookUpdate),
        bb.pending_updates.length ≤ L2.MAX_PENDING_UPDATES →
        (L2.BufferedOrderBook.apply_update bb u).1.pending_updates.length ≤
            L2.MAX_PENDING_UPDATES ∧
          ((L2.BufferedOrderBook.apply_update bb u).2 =
              .error .SequenceNumberGap →
            listLookup u.seq_no
                (L2.BufferedOrderBook.apply_update bb u).1.pending_updates =
              some u)) ∧
    (∀ (bb : L2.BufferedOrderBook) (s : OrderBookSnapshot),
        bb.pending_updates.length ≤ L2.MAX_PENDING_UPDATES →
        (L2.BufferedOrderBook.apply_snapshot bb s).1.pending_updates.length ≤
          L2.MAX_PENDING_UPDATES) := by
  refine ⟨?_, ?_, ?_, ?_⟩
  · intro bb u hlen
    cases happ : OB.apply_update bb.order_book u with
    | mk b' res =>
      cases res with
      | ok v =>
        cases v
        constructor
        · simp only [OB.BufferedOrderBook.apply_update, happ]
          exact Nat.le_trans (OB.try_apply_length_le b' _) hlen
        · intro hgap
          simp [OB.BufferedOrderBook.apply_update, happ] at hgap
      | error e =>
        cases e with
        | SequenceNumberGap =>
          by_cases hcap :
              bb.pending_updates.length ≥ OB.MAX_PENDING_UPDATES
          · constructor
            · simp only [OB.BufferedOrderBook.apply_update, happ, if_pos hcap]
              calc (listInsert u.seq_no u
                      ([] : List (Nat × OB.OrderBookUpdate))).length
                  ≤ 0 + 1 := listInsert_length_le _ _ _
                _ ≤ OB.MAX_PENDING_UPDATES := by
                    norm_num [OB.MAX_PENDING_UPDATES]
            · intro _
              simp only [OB.BufferedOrderBook.apply_update, happ, if_pos hcap]
              exact listLookup_listInsert_self _ _ _
          · have hlt : bb.pending_updates.length < OB.MAX_PENDING_UPDATES := by
              omega
            constructor
            · simp only [OB.BufferedOrderBook.apply_update, happ,
                if_neg hcap]
              have := listInsert_length_le u.seq_no u bb.pending_updates
              omega
            · intro _
              simp only [OB.BufferedOrderBook.apply_update, happ,
                if_neg hcap]
              exact listLookup_listInsert_self _ _ _
        | OldSequenceNumber =>
          constructor
          · simpa [OB.BufferedOrderBook.apply_update, happ] using hlen
          · intro hgap
            simp [OB.BufferedOrderBook.apply_update, happ] at hgap
        | SecurityIdMismatch =>
          constructor
          · simpa [OB.BufferedOrderBook.apply_update, happ] using hlen
          · intro hgap
            simp [OB.BufferedOrderBook.apply_update, happ] at hgap
        | OrderBookNotFound =>
          constructor
          · simpa [OB.BufferedOrderBook.apply_update, happ] using hlen
          · intro hgap
            simp [OB.BufferedOrderBook.apply_update, happ] at hgap
        | InvalidPrice i m =>
          constructor
          · simpa [OB.BufferedOrderBook.apply_update, happ] using hlen
          · intro hgap
            simp [OB.BufferedOrderBook.apply_update, happ] at hgap
        | InvalidSide i m =>
          constructor
          · simpa [OB.BufferedOrderBook.apply_update, happ] using hlen
          · intro hgap
            simp [OB.BufferedOrderBook.apply_update, happ] at hgap
  · intro bb s hlen
    cases happ : OB.apply_snapshot bb.order_book s with
    | mk b' res =>
      cases res with
      | ok v =>
        cases v
        simp only [OB.BufferedOrderBook.apply_snapshot, happ]
        exact Nat.le_trans
          (Nat.le_trans (OB.try_apply_length_le b' _)
            (List.length_filter_le _ _)) hlen
      | error e =>
        simpa [OB.BufferedOrderBook.apply_snapshot, happ] using hlen
  · intro bb u hlen
    cases happ : L2.apply_update bb.order_book u with
    | mk b' res =>
      cases res with
      | ok v =>
        cases v
        constructor
        · simp only [L2.BufferedOrderBook.apply_update, happ]
          exact Nat.le_trans (L2.try_apply_length_le2 b' _) hlen
        · intro hgap
          simp [L2.BufferedOrderBook.apply_update, happ] at hgap
      | error e =>
        cases e with
        | SequenceNumberGap =>
          by_cases hcap :
              bb.pending_updates.length ≥ L2.MAX_PENDING_UPDATES
          · constructor
            · simp only [L2.BufferedOrderBook.apply_update, happ, if_pos hcap]
              have h1 := listInsert_length_le u.seq_no u bb.pending_updates.tail
              have h2 : bb.pending_updates.tail.length =
                  bb.pending_updates.length - 1 := by
                simp [List.length_tail]
              have h3 : 0 < L2.MAX_PENDING_UPDATES := by
                norm_num [L2.MAX_PENDING_UPDATES]
              omega
            · intro _
              simp only [L2.BufferedOrderBook.apply_update, happ, if_pos hcap]
              exact listLookup_listInsert_self _ _ _
          · have hlt : bb.pending_updates.length < L2.MAX_PENDING_UPDATES := by
              omega
            constructor
            · simp only [L2.BufferedOrderBook.apply_update, happ,
                if_neg hcap]
              have := listInsert_length_le u.seq_no u bb.pending_updates
              omega
            · intro _
              simp only [L2.BufferedOrderBook.apply_update, happ,
                if_neg hcap]
              exact listLookup_listInsert_self _ _ _
        | OldSequenceNumber =>
          constructor
          · simpa [L2.BufferedOrderBook.apply_update, happ] using hlen
          · intro hgap
            simp [L2.BufferedOrderBook.apply_update, happ] at hgap
        | SecurityIdMismatch =>
          constructor
          · simpa [L2.BufferedOrderBook.apply_update, happ] using hlen
          · intro hgap
            simp [L2.BufferedOrderBook.apply_update, happ] at hgap
        | OrderBookNotFound =>
          constructor
          · simpa [L2.BufferedOrderBook.apply_update, happ] using hlen
          · intro hgap
            simp [L2.BufferedOrderBook.apply_update, happ] at hgap
        | InvalidPrice i m =>
          constructor
          · simpa [L2.BufferedOrderBook.apply_update, happ] using hlen
          · intro hgap
            simp [L2.BufferedOrderBook.apply_update, happ] at hgap
        | InvalidSide i m =>
          constructor
          · simpa [L2.BufferedOrderBook.apply_update, happ] using hlen
          · intro hgap
            simp [L2.BufferedOrderBook.apply_update, happ] at hgap
  · intro bb s hlen
    cases happ : L2.apply_snapshot bb.order_book s with
    | mk b' res =>
      cases res with
      | ok v =>
        cases v
        simp only [L2.BufferedOrderBook.apply_snapshot, happ]
        exact Nat.le_trans (L2.try_apply_length_le2 b' _) hlen
      | error e =>
        simpa [L2.BufferedOrderBook.apply_snapshot, happ] using hlen

namespace OB

/-- The externally observable fields of a book: `(bids, asks, seq_no,
timestamp, security_id)` — everything except the scratch vectors. -/
def coreState (b : OrderBook) :
    List (Decimal × Nat) × List (Decimal × Nat) × Nat × Nat × Nat :=
  (b.bids, b.asks, b.seq_no, b.timestamp, b.security_id)

theorem prepareUpdates_core (security_id seq_no : Nat) :
    ∀ (entries : List Level) (b : OrderBook),
      coreState (prepareUpdates security_id seq_no entries b).1 = coreState b := by
  intro entries
  induction entries with
  | nil => intro b; rfl
  | cons upd rest ih =>
    intro b
    cases hnp : normalized_price security_id seq_no upd.price with
    | error e => simp [prepareUpdates, hnp]
    | ok price =>
      by_cases h0 : upd.side = 0
      · simp only [prepareUpdates, hnp]
        rw [if_pos h0, ih]
        simp [coreState]
      · by_cases h1 : upd.side = 1
        · simp only [prepareUpdates, hnp]
          rw [if_neg h0, if_pos h1, ih]
          simp [coreState]
        · simp [prepareUpdates, hnp, h0, h1]

theorem apply_update_error_core (b : OrderBook) (u : OrderBookUpdate)
    (e : Errors) (h : (apply_update b u).2 = .error e) :
    coreState (apply_update b u).1 = coreState b := by
  unfold apply_update
  by_cases h1 : u.security_id ≠ b.security_id
  · simp [h1]
  · by_cases h2 : u.seq_no ≤ b.seq_no
    · simp [h1, h2]
    · by_cases h3 : u.seq_no ≠ b.seq_no + 1
      · simp [h1, h2, h3]
      · cases hp : prepareUpdates u.security_id u.seq_no u.updates
            { b with ask_updates := [], bid_updates := [] } with
        | mk b2 o =>
          cases o with
          | some e' =>
            simp only [h1, h2, h3, if_false, hp]
            have := prepareUpdates_core u.security_id u.seq_no u.updates
              { b with ask_updates := [], bid_updates := [] }
            rw [hp] at this
            exact this
          | none =>
            exfalso
            unfold apply_update at h
            simp only [h1, h2, h3, if_false, hp] at h
            exact Except.noConfusion h

theorem apply_update_congr (b1 b2 : OrderBook) (u : OrderBookUpdate)
    (h : coreState b1 = coreState b2) :
    coreState (apply_update b1 u).1 = coreState (apply_update b2 u).1 ∧
      (apply_update b1 u).2 = (apply_update b2 u).2 := by
  obtain ⟨ts1, sq1, sec1, bids1, asks1, bu1, au1⟩ := b1
  obtain ⟨ts2, sq2, sec2, bids2, asks2, bu2, au2⟩ := b2
  simp only [coreState, Prod.mk.injEq] at h
  obtain ⟨hb, ha, hs, ht, hc⟩ := h
  subst hb ha hs ht hc
  unfold apply_update
  by_cases h1 : u.security_id ≠ sec1
  · simp [coreState, h1]
  · by_cases h2 : u.seq_no ≤ sq1
    · simp [coreState, h1, h2]
    · by_cases h3 : u.seq_no ≠ sq1 + 1
      · simp [coreState, h1, h2, h3]
      · simp only [h1, h2, h3, if_false]
        constructor <;> trivial

theorem apply_snapshot_error_core (b : OrderBook) (s : OrderBookSnapshot)
    (e : Errors) (h : (apply_snapshot b s).2 = .error e) :
    coreState (apply_snapshot b s).1 = coreState b := by
  unfold apply_snapshot
  by_cases h1 : s.security_id ≠ b.security_id
  · simp [h1]
  · by_cases h2 : s.seq_no ≤ b.seq_no
    · simp [h1, h2]
    · unfold apply_snapshot_sides
      cases hpa : pushSnapshotLevels s.security_id s.seq_no
          (snapshotAskLevels s) [] with
      | mk askUpd oa =>
        cases oa with
        | some ea => simp [h1, h2, hpa, coreState]
        | none =>
          cases hpb : pushSnapshotLevels s.security_id s.seq_no
              (snapshotBidLevels s) [] with
          | mk bidUpd ob =>
            cases ob with
            | some eb => simp [h1, h2, hpa, hpb, coreState]
            | none =>
              exfalso
              unfold apply_snapshot apply_snapshot_sides at h
              simp only [h1, h2, if_false, hpa, hpb] at h
              exact Except.noConfusion h

theorem apply_snapshot_congr (b1 b2 : OrderBook) (s : OrderBookSnapshot)
    (h : coreState b1 = coreState b2) :
    coreState (apply_snapshot b1 s).1 = coreState (apply_snapshot b2 s).1 ∧
      (apply_snapshot b1 s).2 = (apply_snapshot b2 s).2 := by
  obtain ⟨ts1, sq1, sec1, bids1, asks1, bu1, au1⟩ := b1
  obtain ⟨ts2, sq2, sec2, bids2, asks2, bu2, au2⟩ := b2
  simp only [coreState, Prod.mk.injEq] at h
  obtain ⟨hb, ha, hs, ht, hc⟩ := h
  subst hb ha hs ht hc
  unfold apply_snapshot
  by_cases h1 : s.security_id ≠ sec1
  · simp [coreState, h1]
  · by_cases h2 : s.seq_no ≤ sq1
    · simp [coreState, h1, h2]
    · simp only [h1, h2, if_false]
      unfold apply_snapshot_sides
      constructor <;> trivial

/-- One subsequent call against a book: an `apply_update` or an
`apply_snapshot` (its result code is discarded, as a driver that keeps
feeding the book regardless of errors would). -/
inductive OBOp where
  | upd (u : OrderBookUpdate)
  | snap (s : OrderBookSnapshot)

/-- Run one call. -/
def stepOp (b : OrderBook) : OBOp → OrderBook
  | .upd u => (apply_update b u).1
  | .snap s => (apply_snapshot b s).1

/-- Run a sequence of subsequent calls. -/
def runOps (b : OrderBook) (ops : List OBOp) : OrderBook :=
  ops.foldl stepOp b

theorem runOps_congr (ops : List OBOp) :
    ∀ (b1 b2 : OrderBook), coreState b1 = coreState b2 →
      coreState (runOps b1 ops) = coreState (runOps b2 ops) := by
  induction ops with
  | nil => intro b1 b2 h; exact h
  | cons op rest ih =>
    intro b1 b2 h
    cases op with
    | upd u => exact ih _ _ (apply_update_congr b1 b2 u h).1
    | snap s => exact ih _ _ (apply_snapshot_congr b1 b2 s h).1

end OB

/-- Price 99.50 for the C1 divergence run. -/
def c1p995 : Decimal := mkDec 199 2 (by decide) (by decide)

/-- Price 100 for the C1 divergence run. -/
def c1p100 : Decimal := mkDec 100 1 (by decide) (by decide)

/-- An `l2_order_book` book at seq 100 with empty sides and clean scratch. -/
def c1book : L2.OrderBook :=
  { timestamp := 5, seq_no := 100, security_id := 1001,
    bids := [], asks := [], bid_updates := [], ask_updates := [] }

/-- A seq-101 update whose first entry is a valid bid and whose second entry
has the invalid side 7: it fails validation after the bid was staged. -/
def c1u1 : L2.OrderBookUpdate :=
  { timestamp := 6, seq_no := 101, security_id := 1001,
    updates := [ { side := 0, price := some c1p995, qty := 25 },
                 { side := 7, price := some c1p100, qty := 30 } ] }

/-- A subsequent valid (empty) seq-101 update. -/
def c1u2 : L2.OrderBookUpdate :=
  { timestamp := 7, seq_no := 101, security_id := 1001, updates := [] }

/-- The failing call. -/
def c1r1 := L2.apply_update c1book c1u1

/-- The subsequent successful call. -/
def c1r2 := L2.apply_update c1r1.1 c1u2

/-- C1: in the `order_book` variant the claim holds — a validation failure
leaves `(bids, asks, seq_no, timestamp)` unchanged and, because every
subsequent call clears the scratch vectors before reading them, no change
carried by the failed update is ever committed across any sequence of
subsequent `apply_update`/`apply_snapshot` calls.  In the `l2_order_book`
variant the second half is violated: the failed seq-101 update `c1u1`
(invalid side on its second entry) returns `InvalidSide` and leaves the book
unchanged, but its staged bid `(99.50, 25)` survives in the scratch vector
and the next successful call `c1u2` — an update carrying NO entries —
commits it to the bids map. -/
theorem C1_failed_update_atomicity :
    (∀ (b : OB.OrderBook) (u : OB.OrderBookUpdate) (ops : List OB.OBOp)
        (e : Errors),
        (OB.apply_update b u).2 = .error e →
        e.isInvalidPrice = true ∨ e.isInvalidSide = true →
        OB.coreState (OB.apply_update b u).1 = OB.coreState b ∧
          OB.coreState (OB.runOps (OB.apply_update b u).1 ops) =
            OB.coreState (OB.runOps b ops)) ∧
    (c1r1.2 = .error (.InvalidSide ⟨1001, 101⟩ "7") ∧
      c1r1.1.bids = [] ∧ c1r1.1.asks = [] ∧ c1r1.1.seq_no = 100 ∧
      c1r1.1.timestamp = 5 ∧
      c1r1.1.bid_updates = [(c1p995, 25)] ∧
      c1r2.2 = .ok () ∧ listLookup c1p995 c1r2.1.bids = some 25) := by
  constructor
  · intro b u ops e herr _
    have hcore := OB.apply_update_error_core b u e herr
    exact ⟨hcore, OB.runOps_congr ops _ _ hcore⟩
  · decide

/-- The last staged change for price `p` in a scratch vector (later entries
overwrite earlier ones when the vector is drained into a map). -/
def lastChange (p : Decimal) (changes : List (Decimal × Nat)) : Option Nat :=
  changes.foldl (fun acc pq => if pq.1 = p then some pq.2 else acc) none

theorem lastChange_foldl_acc (p : Decimal) :
    ∀ (t : List (Decimal × Nat)) (acc : Option Nat),
      t.foldl (fun acc pq => if pq.1 = p then some pq.2 else acc) acc =
        match lastChange p t with
        | some v => some v
        | none => acc := by
  intro t
  induction t with
  | nil => intro acc; simp [lastChange]
  | cons c t ih =>
    intro acc
    rw [List.foldl_cons]
    rw [ih]
    have h2 : lastChange p (c :: t) =
        match lastChange p t with
        | some v => some v
        | none => if c.1 = p then some c.2 else none := by
      rw [lastChange, List.foldl_cons]
      have := ih (if c.1 = p then some c.2 else none)
      simpa [lastChange] using this
    rw [h2]
    cases lastChange p t with
    | some v => rfl
    | none => by_cases hcp : c.1 = p <;> simp [hcp]

theorem lastChange_cons (p : Decimal) (c : Decimal × Nat)
    (t : List (Decimal × Nat)) :
    lastChange p (c :: t) =
      match lastChange p t with
      | some v => some v
      | none => if c.1 = p then some c.2 else none := by
  rw [lastChange, List.foldl_cons]
  have := lastChange_foldl_acc p t (if c.1 = p then some c.2 else none)
  simpa [lastChange] using this

theorem lastChange_append (p : Decimal) (l1 l2 : List (Decimal × Nat)) :
    lastChange p (l1 ++ l2) =
      match lastChange p l2 with
      | some v => some v
      | none => lastChange p l1 := by
  rw [lastChange, List.foldl_append]
  have := lastChange_foldl_acc p l2 (lastChange p l1)
  simpa [lastChange] using this

theorem lookup_applyLevelChanges (p : Decimal) :
    ∀ (changes m : List (Decimal × Nat)),
      listLookup p (applyLevelChanges changes m) =
        match lastChange p changes with
        | none => listLookup p m
        | some q => if q = 0 then none else some q := by
  intro changes
  induction changes with
  | nil => intro m; simp [applyLevelChanges, lastChange]
  | cons c t ih =>
    intro m
    rw [applyLevelChanges, List.foldl_cons]
    have step : applyLevelChanges t
        (if c.2 = 0 then listEraseKey c.1 m else listInsert c.1 c.2 m) =
        List.foldl
          (fun acc pq =>
            if pq.2 = 0 then listEraseKey pq.1 acc
            else listInsert pq.1 pq.2 acc)
          (if c.2 = 0 then listEraseKey c.1 m else listInsert c.1 c.2 m) t := by
      rfl
    rw [← step, ih, lastChange_cons]
    cases hl : lastChange p t with
    | some q => rfl
    | none =>
      by_cases hcp : c.1 = p
      · subst hcp
        by_cases hq : c.2 = 0
        · simp [hq, listLookup_listEraseKey_self]
        · simp [hq, listLookup_listInsert_self]
      · have hpc : p ≠ c.1 := fun h => hcp h.symm
        by_cases hq : c.2 = 0
        · simp [hq, hcp, listLookup_listEraseKey_ne c.1 p m hpc]
        · simp [hq, hcp, listLookup_listInsert_ne c.1 p c.2 m hpc]

theorem lookup_insertAll (p : Decimal) :
    ∀ (changes m : List (Decimal × Nat)),
      listLookup p (insertAll changes m) =
        match lastChange p changes with
        | none => listLookup p m
        | some q => some q := by
  intro changes
  induction changes with
  | nil => intro m; simp [insertAll, lastChange]
  | cons c t ih =>
    intro m
    rw [insertAll, List.foldl_cons]
    have step : insertAll t (listInsert c.1 c.2 m) =
        List.foldl (fun acc pq => listInsert pq.1 pq.2 acc)
          (listInsert c.1 c.2 m) t := rfl
    rw [← step, ih, lastChange_cons]
    cases hl : lastChange p t with
    | some q => rfl
    | none =>
      by_cases hcp : c.1 = p
      · subst hcp
        simp [listLookup_listInsert_self]
      · have hpc : p ≠ c.1 := fun h => hcp h.symm
        simp [hcp, listLookup_listInsert_ne c.1 p c.2 m hpc]

namespace OB

/-- The `(price, qty)` changes an update's walk stages for one side: the
entries with the given side, each with its normalised price (entries of the
other side, and entries whose price does not normalise, contribute
nothing — on the success path every price normalises). -/
def sideChanges (side security_id seq_no : Nat) (entries : List Level) :
    List (Decimal × Nat) :=
  entries.filterMap (fun e =>
    if e.side = side then
      match normalized_price security_id seq_no e.price with
      | .ok p => some (p, e.qty)
      | .error _ => none
    else none)

theorem prepareUpdates_ok (security_id seq_no : Nat) :
    ∀ (entries : List Level) (b b2 : OrderBook),
      prepareUpdates security_id seq_no entries b = (b2, none) →
      b2 = { b with
              bid_updates := b.bid_updates ++
                sideChanges 0 security_id seq_no entries,
              ask_updates := b.ask_updates ++
                sideChanges 1 security_id seq_no entries } := by
  intro entries
  induction entries with
  | nil =>
    intro b b2 h
    simp only [prepareUpdates, Prod.mk.injEq] at h
    simp [sideChanges, ← h.1]
  | cons e rest ih =>
    intro b b2 h
    cases hnp : normalized_price security_id seq_no e.price with
    | error err =>
      simp only [prepareUpdates, hnp] at h
      simp at h
    | ok price =>
      by_cases h0 : e.side = 0
      · simp only [prepareUpdates, hnp, h0, if_true, if_pos] at h
        have := ih _ _ h
        rw [this]
        have hc0 : sideChanges 0 security_id seq_no (e :: rest) =
            (price, e.qty) :: sideChanges 0 security_id seq_no rest := by
          simp [sideChanges, List.filterMap_cons, h0, hnp]
        have hc1 : sideChanges 1 security_id seq_no (e :: rest) =
            sideChanges 1 security_id seq_no rest := by
          simp [sideChanges, List.filterMap_cons, h0, hnp]
        simp [hc0, hc1]
      · by_cases h1 : e.side = 1
        · simp only [prepareUpdates, hnp, h0, h1, if_false, if_true,
            if_pos, if_neg, not_false_eq_true] at h
          have := ih _ _ h
          rw [this]
          have hc0 : sideChanges 0 security_id seq_no (e :: rest) =
              sideChanges 0 security_id seq_no rest := by
            simp [sideChanges, List.filterMap_cons, h0, hnp]
          have hc1 : sideChanges 1 security_id seq_no (e :: rest) =
              (price, e.qty) :: sideChanges 1 security_id seq_no rest := by
            simp [sideChanges, List.filterMap_cons, h1, hnp]
          simp [hc0, hc1]
        · simp only [prepareUpdates, hnp, h0, h1, if_false] at h
          simp at h

theorem apply_update_ok (b : OrderBook) (u : OrderBookUpdate)
    (b' : OrderBook) (h : apply_update b u = (b', .ok ())) :
    u.security_id = b.security_id ∧ u.seq_no = b.seq_no + 1 ∧
      b' = { b with
              bids := applyLevelChanges
                (sideChanges 0 u.security_id u.seq_no u.updates) b.bids,
              asks := applyLevelChanges
                (sideChanges 1 u.security_id u.seq_no u.updates) b.asks,
              bid_updates := [], ask_updates := [],
              timestamp := u.timestamp, seq_no := u.seq_no } := by
  unfold apply_update at h
  by_cases h1 : u.security_id ≠ b.security_id
  · rw [if_pos h1] at h
    simp at h
  · rw [if_neg h1] at h
    by_cases h2 : u.seq_no ≤ b.seq_no
    · rw [if_pos h2] at h
      simp at h
    · rw [if_neg h2] at h
      by_cases h3 : u.seq_no ≠ b.seq_no + 1
      · rw [if_pos h3] at h
        simp at h
      · rw [if_neg h3] at h
        dsimp only at h
        refine ⟨by omega, by omega, ?_⟩
        cases hp : prepareUpdates u.security_id u.seq_no u.updates
            { b with ask_updates := [], bid_updates := [] } with
        | mk b2 o =>
          rw [hp] at h
          cases o with
          | some e => simp at h
          | none =>
            have hb2 := prepareUpdates_ok u.security_id u.seq_no u.updates
              _ _ hp
            simp only [Prod.mk.injEq] at h
            rw [← h.1, hb2]
            simp

end OB

namespace L2

/-- The `(price, qty)` changes an update's walk stages for one side
(`l2_order_book` variant). -/
def sideChanges (side security_id seq_no : Nat) (entries : List Update) :
    List (Decimal × Nat) :=
  entries.filterMap (fun e =>
    if e.side = side then
      match normalized_price security_id seq_no e.price with
      | .ok p => some (p, e.qty)
      | .error _ => none
    else none)

theorem prepareUpdates_ok2 (security_id seq_no : Nat) :
    ∀ (entries : List Update) (b b2 : OrderBook),
      prepareUpdates security_id seq_no entries b = (b2, none) →
      b2 = { b with
              bid_updates := b.bid_updates ++
                sideChanges 0 security_id seq_no entries,
              ask_updates := b.ask_updates ++
                sideChanges 1 security_id seq_no entries } := by
  intro entries
  induction entries with
  | nil =>
    intro b b2 h
    simp only [prepareUpdates, Prod.mk.injEq] at h
    simp [sideChanges, ← h.1]
  | cons e rest ih =>
    intro b b2 h
    cases hnp : normalized_price security_id seq_no e.price with
    | error err =>
      simp only [prepareUpdates, hnp] at h
      simp at h
    | ok price =>
      by_cases h0 : e.side = 0
      · simp only [prepareUpdates, hnp, h0, if_true, if_pos] at h
        have := ih _ _ h
        rw [this]
        have hc0 : sideChanges 0 security_id seq_no (e :: rest) =
            (price, e.qty) :: sideChanges 0 security_id seq_no rest := by
          simp [sideChanges, List.filterMap_cons, h0, hnp]
        have hc1 : sideChanges 1 security_id seq_no (e :: rest) =
            sideChanges 1 security_id seq_no rest := by
          simp [sideChanges, List.filterMap_cons, h0, hnp]
        simp [hc0, hc1]
      · by_cases h1 : e.side = 1
        · simp only [prepareUpdates, hnp, h0, h1, if_false, if_true,
            if_pos, if_neg, not_false_eq_true] at h
          have := ih _ _ h
          rw [this]
          have hc0 : sideChanges 0 security_id seq_no (e :: rest) =
              sideChanges 0 security_id seq_no rest := by
            simp [sideChanges, List.filterMap_cons, h0, hnp]
          have hc1 : sideChanges 1 security_id seq_no (e :: rest) =
              (price, e.qty) :: sideChanges 1 security_id seq_no rest := by
            simp [sideChanges, List.filterMap_cons, h1, hnp]
          simp [hc0, hc1]
        · simp only [prepareUpdates, hnp, h0, h1, if_false] at h
          simp at h

theorem apply_update_ok2 (b : OrderBook) (u : OrderBookUpdate)
    (b' : OrderBook) (h : apply_update b u = (b', .ok ())) :
    u.security_id = b.security_id ∧ u.seq_no = b.seq_no + 1 ∧
      b' = { b with
              bids := applyLevelChanges (b.bid_updates ++
                sideChanges 0 u.security_id u.seq_no u.updates) b.bids,
              asks := applyLevelChanges (b.ask_updates ++
                sideChanges 1 u.security_id u.seq_no u.updates) b.asks,
              bid_updates := [], ask_updates := [],
              timestamp := u.timestamp, seq_no := u.seq_no } := by
  unfold apply_update at h
  by_cases h1 : u.security_id ≠ b.security_id
  · rw [if_pos h1] at h
    simp at h
  · rw [if_neg h1] at h
    by_cases h2 : u.seq_no ≤ b.seq_no
    · rw [if_pos h2] at h
      simp at h
    · rw [if_neg h2] at h
      by_cases h3 : u.seq_no ≠ b.seq_no + 1
      · rw [if_pos h3] at h
        simp at h
      · rw [if_neg h3] at h
        refine ⟨by omega, by omega, ?_⟩
        cases hp : prepareUpdates u.security_id u.seq_no u.updates b with
        | mk b2 o =>
          rw [hp] at h
          cases o with
          | some e => simp at h
          | none =>
            have hb2 := prepareUpdates_ok2 u.security_id u.seq_no u.updates
              _ _ hp
            simp only [Prod.mk.injEq] at h
            rw [← h.1, hb2]

end L2

/-- C3: `apply_update`'s contract in both book variants.  The error
precedence: `SecurityIdMismatch` first, then `OldSequenceNumber` for
`seq_no ≤ book.seq_no`, then `SequenceNumberGap` for any other
`seq_no ≠ book.seq_no + 1`, each leaving the book unchanged.  On success
(`seq_no = book.seq_no + 1`) the book's lookup at each price follows the
LAST entry of the update touching that price — `qty = 0` removes the price
from the named side, `qty > 0` sets it — and `timestamp`/`seq_no` advance
to the update's values. -/
theorem C3_apply_update_contract :
    (∀ (b : OB.OrderBook) (u : OB.OrderBookUpdate),
        u.security_id ≠ b.security_id →
        OB.apply_update b u = (b, .error .SecurityIdMismatch)) ∧
    (∀ (b : OB.OrderBook) (u : OB.OrderBookUpdate),
        u.security_id = b.security_id → u.seq_no ≤ b.seq_no →
        OB.apply_update b u = (b, .error .OldSequenceNumber)) ∧
    (∀ (b : OB.OrderBook) (u : OB.OrderBookUpdate),
        u.security_id = b.security_id → b.seq_no < u.seq_no →
        u.seq_no ≠ b.seq_no + 1 →
        OB.apply_update b u = (b, .error .SequenceNumberGap)) ∧
    (∀ (b : OB.OrderBook) (u : OB.OrderBookUpdate) (b' : OB.OrderBook),
        OB.apply_update b u = (b', .ok ()) →
        u.seq_no = b.seq_no + 1 ∧
        b'.timestamp = u.timestamp ∧ b'.seq_no = u.seq_no ∧
        (∀ p, listLookup p b'.bids =
          match lastChange p
              (OB.sideChanges 0 u.security_id u.seq_no u.updates) with
          | none => listLookup p b.bids
          | some q => if q = 0 then none else some q) ∧
        (∀ p, listLookup p b'.asks =
          match lastChange p
              (OB.sideChanges 1 u.security_id u.seq_no u.updates) with
          | none => listLookup p b.asks
          | some q => if q = 0 then none else some q)) ∧
    (∀ (b : L2.OrderBook) (u : L2.OrderBookUpdate),
        u.security_id ≠ b.security_id →
        L2.apply_update b u = (b, .error .SecurityIdMismatch)) ∧
    (∀ (b : L2.OrderBook) (u : L2.OrderBookUpdate),
        u.security_id = b.security_id → u.seq_no ≤ b.seq_no →
        L2.apply_update b u = (b, .error .OldSequenceNumber)) ∧
    (∀ (b : L2.OrderBook) (u : L2.OrderBookUpdate),
        u.security_id = b.security_id → b.seq_no < u.seq_no →
        u.seq_no ≠ b.seq_no + 1 →
        L2.apply_update b u = (b, .error .SequenceNumberGap)) ∧
    (∀ (b : L2.OrderBook) (u : L2.OrderBookUpdate) (b' : L2.OrderBook),
        L2.apply_update b u = (b', .ok ()) →
        u.seq_no = b.seq_no + 1 ∧
        b'.timestamp = u.timestamp ∧ b'.seq_no = u.seq_no ∧
        (∀ p q, lastChange p
              (L2.sideChanges 0 u.security_id u.seq_no u.updates) = some q →
          listLookup p b'.bids = if q = 0 then none else some q) ∧
        (∀ p q, lastChange p
              (L2.sideChanges 1 u.security_id u.seq_no u.updates) = some q →
          listLookup p b'.asks = if q = 0 then none else some q)) := by
  refine ⟨?_, ?_, ?_, ?_, ?_, ?_, ?_, ?_⟩
  · intro b u h
    unfold OB.apply_update
    rw [if_pos h]
  · intro b u heq hle
    unfold OB.apply_update
    rw [if_neg (by simp [heq]), if_pos hle]
  · intro b u heq hlt hne
    unfold OB.apply_update
    rw [if_neg (by simp [heq]), if_neg (by omega), if_pos hne]
  · intro b u b' h
    obtain ⟨hsec, hseq, hb'⟩ := OB.apply_update_ok b u b' h
    refine ⟨hseq, by rw [hb'], by rw [hb'], ?_, ?_⟩
    · intro p
      rw [hb']
      exact lookup_applyLevelChanges p _ b.bids
    · intro p
      rw [hb']
      exact lookup_applyLevelChanges p _ b.asks
  · intro b u h
    unfold L2.apply_update
    rw [if_pos h]
  · intro b u heq hle
    unfold L2.apply_update
    rw [if_neg (by simp [heq]), if_pos hle]
  · intro b u heq hlt hne
    unfold L2.apply_update
    rw [if_neg (by simp [heq]), if_neg (by omega), if_pos hne]
  · intro b u b' h
    obtain ⟨hsec, hseq, hb'⟩ := L2.apply_update_ok2 b u b' h
    refine ⟨hseq, by rw [hb'], by rw [hb'], ?_, ?_⟩
    · intro p q hq
      rw [hb']
      have := lookup_applyLevelChanges p
        (b.bid_updates ++ L2.sideChanges 0 u.security_id u.seq_no u.updates)
        b.bids
      rw [lastChange_append, hq] at this
      simpa using this
    · intro p q hq
      rw [hb']
      have := lookup_applyLevelChanges p
        (b.ask_updates ++ L2.sideChanges 1 u.security_id u.seq_no u.updates)
        b.asks
      rw [lastChange_append, hq] at this
      simpa using this

/-- Does a price pass `normalized_price`? -/
def priceOk (security_id seq_no : Nat) (price : F64) : Bool :=
  match normalized_price security_id seq_no price with
  | .ok _ => true
  | .error _ => false

/-- Every level of the list with positive quantity has a price that
normalises.  Levels with quantity 0 are NOT constrained: the code skips
them without validation. -/
def levelsValid (security_id seq_no : Nat)
    (levels : List SnapshotLevel) : Prop :=
  ∀ l ∈ levels, 0 < l.qty → priceOk security_id seq_no l.price = true

instance (security_id seq_no : Nat) (levels : List SnapshotLevel) :
    Decidable (levelsValid security_id seq_no levels) := by
  unfold levelsValid
  infer_instance

/-- The `(price, qty)` pairs a snapshot side contributes: its levels with
positive quantity, each with its normalised price. -/
def snapshotChanges (security_id seq_no : Nat)
    (levels : List SnapshotLevel) : List (Decimal × Nat) :=
  levels.filterMap (fun l =>
    if 0 < l.qty then
      match normalized_price security_id seq_no l.price with
      | .ok p => some (p, l.qty)
      | .error _ => none
    else none)

theorem normalized_price_error_shape (security_id seq_no : Nat)
    (price : F64) (e : Errors)
    (h : normalized_price security_id seq_no price = .error e) :
    ∃ i m, e = .InvalidPrice i m := by
  unfold normalized_price from_f64 at h
  cases price with
  | none =>
    have h' : Errors.InvalidPrice ⟨security_id, seq_no⟩
        "Failed to convert f64 value to Decimal" = e := by
      injection h
    exact ⟨_, _, h'.symm⟩
  | some d =>
    dsimp only at h
    by_cases ht : tickExact d
    · rw [if_pos ht] at h
      exact absurd h (by simp)
    · rw [if_neg ht] at h
      have h' : Errors.InvalidPrice ⟨security_id, seq_no⟩
          "The price is not a multiple of PRICE_TICK" = e := by
        injection h
      exact ⟨_, _, h'.symm⟩

theorem pushSnapshotLevels_valid (security_id seq_no : Nat) :
    ∀ (levels : List SnapshotLevel) (acc : List (Decimal × Nat)),
      levelsValid security_id seq_no levels →
      pushSnapshotLevels security_id seq_no levels acc =
        (acc ++ snapshotChanges security_id seq_no levels, none) := by
  intro levels
  induction levels with
  | nil => intro acc _; simp [pushSnapshotLevels, snapshotChanges]
  | cons l ls ih =>
    intro acc hv
    have hvtail : levelsValid security_id seq_no ls := by
      intro x hx hq
      exact hv x (List.mem_cons_of_mem _ hx) hq
    by_cases hq : 0 < l.qty
    · have hok := hv l (List.mem_cons_self _ _) hq
      unfold priceOk at hok
      cases hnp : normalized_price security_id seq_no l.price with
      | error e => rw [hnp] at hok; simp at hok
      | ok p =>
        rw [pushSnapshotLevels, if_pos hq, hnp]
        dsimp only
        rw [ih _ hvtail]
        have : snapshotChanges security_id seq_no (l :: ls) =
            (p, l.qty) :: snapshotChanges security_id seq_no ls := by
          simp [snapshotChanges, List.filterMap_cons, hq, hnp]
        rw [this]
        simp
    · rw [pushSnapshotLevels, if_neg hq, ih _ hvtail]
      have : snapshotChanges security_id seq_no (l :: ls) =
          snapshotChanges security_id seq_no ls := by
        simp [snapshotChanges, List.filterMap_cons, hq]
      rw [this]

theorem pushSnapshotLevels_invalid (security_id seq_no : Nat) :
    ∀ (levels : List SnapshotLevel) (acc : List (Decimal × Nat)),
      ¬ levelsValid security_id seq_no levels →
      ∃ acc' i m, pushSnapshotLevels security_id seq_no levels acc =
        (acc', some (.InvalidPrice i m)) := by
  intro levels
  induction levels with
  | nil =>
    intro acc h
    exact absurd (by intro x hx; simp at hx) h
  | cons l ls ih =>
    intro acc h
    by_cases hq : 0 < l.qty
    · cases hnp : normalized_price security_id seq_no l.price with
      | error e =>
        obtain ⟨i, m, he⟩ :=
          normalized_price_error_shape security_id seq_no l.price e hnp
        refine ⟨acc, i, m, ?_⟩
        rw [pushSnapshotLevels, if_pos hq, hnp]
        dsimp only
        rw [he]
      | ok p =>
        have htail : ¬ levelsValid security_id seq_no ls := by
          intro hv
          apply h
          intro x hx hxq
          rcases List.mem_cons.mp hx with hx | hx
          · subst hx
            simp [priceOk, hnp]
          · exact hv x hx hxq
        obtain ⟨acc', i, m, hrec⟩ := ih (acc ++ [(p, l.qty)]) htail
        refine ⟨acc', i, m, ?_⟩
        rw [pushSnapshotLevels, if_pos hq, hnp]
        dsimp only
        rw [hrec]
    · have htail : ¬ levelsValid security_id seq_no ls := by
        intro hv
        apply h
        intro x hx hxq
        rcases List.mem_cons.mp hx with hx | hx
        · subst hx
          omega
        · exact hv x hx hxq
      obtain ⟨acc', i, m, hrec⟩ := ih acc htail
      refine ⟨acc', i, m, ?_⟩
      rw [pushSnapshotLevels, if_neg hq, hrec]

namespace OB

theorem apply_snapshot_sides_valid (b : OrderBook) (s : OrderBookSnapshot)
    (hA : levelsValid s.security_id s.seq_no (snapshotAskLevels s))
    (hB : levelsValid s.security_id s.seq_no (snapshotBidLevels s)) :
    apply_snapshot_sides b s =
      ({ b with
          asks := insertAll
            (snapshotChanges s.security_id s.seq_no (snapshotAskLevels s)) [],
          bids := insertAll
            (snapshotChanges s.security_id s.seq_no (snapshotBidLevels s)) [],
          ask_updates := [], bid_updates := [] }, .ok ()) := by
  unfold apply_snapshot_sides
  dsimp only
  rw [pushSnapshotLevels_valid _ _ _ _ hA]
  dsimp only
  rw [pushSnapshotLevels_valid _ _ _ _ hB]
  dsimp only
  simp

theorem apply_snapshot_sides_invalid (b : OrderBook) (s : OrderBookSnapshot)
    (h : ¬ (levelsValid s.security_id s.seq_no (snapshotAskLevels s) ∧
        levelsValid s.security_id s.seq_no (snapshotBidLevels s))) :
    ∃ b2 i m, apply_snapshot_sides b s = (b2, .error (.InvalidPrice i m)) ∧
      b2.bids = b.bids ∧ b2.asks = b.asks ∧ b2.seq_no = b.seq_no ∧
      b2.timestamp = b.timestamp ∧ b2.security_id = b.security_id := by
  by_cases hA : levelsValid s.security_id s.seq_no (snapshotAskLevels s)
  · have hBn : ¬ levelsValid s.security_id s.seq_no (snapshotBidLevels s) :=
      fun hB => h ⟨hA, hB⟩
    obtain ⟨acc', i, m, hp⟩ :=
      pushSnapshotLevels_invalid s.security_id s.seq_no
        (snapshotBidLevels s) [] hBn
    have heq : apply_snapshot_sides b s =
        ({ b with
            ask_updates :=
              [] ++ snapshotChanges s.security_id s.seq_no (snapshotAskLevels s),
            bid_updates := acc' }, .error (.InvalidPrice i m)) := by
      unfold apply_snapshot_sides
      dsimp only
      rw [pushSnapshotLevels_valid _ _ _ _ hA]
      dsimp only
      rw [hp]
    exact ⟨_, i, m, heq, rfl, rfl, rfl, rfl, rfl⟩
  · obtain ⟨acc', i, m, hp⟩ :=
      pushSnapshotLevels_invalid s.security_id s.seq_no
        (snapshotAskLevels s) [] hA
    have heq : apply_snapshot_sides b s =
        ({ b with ask_updates := acc', bid_updates := [] },
         .error (.InvalidPrice i m)) := by
      unfold apply_snapshot_sides
      dsimp only
      rw [hp]
    exact ⟨_, i, m, heq, rfl, rfl, rfl, rfl, rfl⟩

end OB

/-- A snapshot level with an integral price. -/
def c2lvl (n : Int) (q : Nat) : SnapshotLevel :=
  { price := some (mkDec n 1 (by decide) (Nat.coprime_one_right _)), qty := q }

/-- The C2 counterexample snapshot: every level is valid except `ask1`,
which carries a non-convertible price (NaN) — but with quantity 0, so the
code never validates it. -/
def c2badSnap : OrderBookSnapshot :=
  { timestamp := 9, seq_no := 100, security_id := 1001,
    bid1 := c2lvl 100 10, ask1 := { price := none, qty := 0 },
    bid2 := c2lvl 99 20, ask2 := c2lvl 102 25,
    bid3 := c2lvl 98 30, ask3 := c2lvl 103 35,
    bid4 := c2lvl 97 40, ask4 := c2lvl 104 45,
    bid5 := c2lvl 96 50, ask5 := c2lvl 105 55 }

/-- C2 (amended): snapshot validation covers exactly the levels with
positive quantity.  For `new`, and for `apply_snapshot` calls that pass the
security and sequence checks: if every qty>0 level has a valid price the
call succeeds and both side maps are replaced with exactly those validated
levels (later same-price levels overwriting earlier ones), after which
`timestamp` and `seq_no` advance; if some qty>0 level has an invalid price
the call returns `InvalidPrice` and `bids`, `asks`, `seq_no`, `timestamp`
are unchanged.  Levels with quantity 0 are skipped without validation. -/
theorem C2_snapshot_validation :
    (∀ s : OrderBookSnapshot,
        levelsValid s.security_id s.seq_no (snapshotAskLevels s) →
        levelsValid s.security_id s.seq_no (snapshotBidLevels s) →
        OB.new s = .ok
          { timestamp := s.timestamp, seq_no := s.seq_no,
            security_id := s.security_id,
            bids := insertAll
              (snapshotChanges s.security_id s.seq_no (snapshotBidLevels s)) [],
            asks := insertAll
              (snapshotChanges s.security_id s.seq_no (snapshotAskLevels s)) [],
            bid_updates := [], ask_updates := [] }) ∧
    (∀ s : OrderBookSnapshot,
        ¬ (levelsValid s.security_id s.seq_no (snapshotAskLevels s) ∧
            levelsValid s.security_id s.seq_no (snapshotBidLevels s)) →
        ∃ i m, OB.new s = .error (.InvalidPrice i m)) ∧
    (∀ (b : OB.OrderBook) (s : OrderBookSnapshot),
        s.security_id = b.security_id → b.seq_no < s.seq_no →
        levelsValid s.security_id s.seq_no (snapshotAskLevels s) →
        levelsValid s.security_id s.seq_no (snapshotBidLevels s) →
        OB.apply_snapshot b s =
          ({ b with
              asks := insertAll
                (snapshotChanges s.security_id s.seq_no (snapshotAskLevels s)) [],
              bids := insertAll
                (snapshotChanges s.security_id s.seq_no (snapshotBidLevels s)) [],
              ask_updates := [], bid_updates := [],
              timestamp := s.timestamp, seq_no := s.seq_no }, .ok ())) ∧
    (∀ (b : OB.OrderBook) (s : OrderBookSnapshot),
        s.security_id = b.security_id → b.seq_no < s.seq_no →
        ¬ (levelsValid s.security_id s.seq_no (snapshotAskLevels s) ∧
            levelsValid s.security_id s.seq_no (snapshotBidLevels s)) →
        ∃ b2 i m, OB.apply_snapshot b s = (b2, .error (.InvalidPrice i m)) ∧
          b2.bids = b.bids ∧ b2.asks = b.asks ∧ b2.seq_no = b.seq_no ∧
          b2.timestamp = b.timestamp) ∧
    (∀ (changes : List (Decimal × Nat)) (p : Decimal),
        listLookup p (insertAll changes []) =
          match lastChange p changes with
          | none => none
          | some q => some q) := by
  refine ⟨?_, ?_, ?_, ?_, ?_⟩
  · intro s hA hB
    unfold OB.new
    dsimp only
    rw [OB.apply_snapshot_sides_valid _ s hA hB]
  · intro s hn
    unfold OB.new
    dsimp only
    obtain ⟨b2, i, m, heq, _⟩ := OB.apply_snapshot_sides_invalid
      { timestamp := s.timestamp, seq_no := s.seq_no,
        security_id := s.security_id,
        bids := [], asks := [], bid_updates := [], ask_updates := [] } s hn
    rw [heq]
    exact ⟨i, m, rfl⟩
  · intro b s hsec hseq hA hB
    unfold OB.apply_snapshot
    rw [if_neg (by simp [hsec]), if_neg (by omega)]
    rw [OB.apply_snapshot_sides_valid b s hA hB]
  · intro b s hsec hseq hn
    unfold OB.apply_snapshot
    rw [if_neg (by simp [hsec]), if_neg (by omega)]
    obtain ⟨b2, i, m, heq, hb, ha, hq, ht, _⟩ :=
      OB.apply_snapshot_sides_invalid b s hn
    rw [heq]
    exact ⟨b2, i, m, rfl, hb, ha, hq, ht⟩
  · intro changes p
    have := lookup_insertAll p changes []
    simpa [listLookup] using this

/-- C2 counterexample: the claim demands `InvalidPrice` for `c2badSnap`
(its `ask1` price fails float-to-decimal conversion), but the code accepts
the snapshot because that level's quantity is 0 and its price is never
validated. -/
theorem C2_zero_qty_invalid_price_accepted :
    (OB.new c2badSnap).isOk = true := by
  decide


namespace BD

/-- The record an already-drained (or skipped empty) batch leaves behind in
the trace invariant: its issued handle and released flag. -/
structure GRec where
  batch : Batch
  rel : Bool

/-- The record of a batch whose entries (if any) are still in the arena
buffer: its issued handle, released flag, payload and header retired bit. -/
structure LRec (α : Type) where
  batch : Batch
  rel : Bool
  payload : List α
  rm : Bool

/-- The buffer entries one appended batch contributes: nothing when empty,
otherwise a header item followed by headerless items (the exact shape
`push_back_batch` builds). -/
def blockItems (p : List α) (rm : Bool) : List (Item α) :=
  match p with
  | [] => []
  | a :: rest => ⟨a, some ⟨p.length, rm⟩⟩ :: rest.map (fun x => ⟨x, none⟩)

theorem blockItems_length (p : List α) (rm : Bool) :
    (blockItems p rm).length = p.length := by
  cases p <;> simp [blockItems]

/-- Forget a live record down to a drained one. -/
def toG (r : LRec α) : GRec := ⟨r.batch, r.rel⟩

/-- Total handle length over drained records. -/
def sumG (gs : List GRec) : Nat := (gs.map (fun g => g.batch.len)).sum

/-- Total handle length over live records. -/
def sumL (ls : List (LRec α)) : Nat := (ls.map (fun r => r.batch.len)).sum

/-- Total payload length over live records. -/
def sumP (ls : List (LRec α)) : Nat :=
  (ls.map (fun r => r.payload.length)).sum

/-- The arena buffer the live records describe. -/
def bufL : List (LRec α) → List (Item α)
  | [] => []
  | r :: rest => blockItems r.payload r.rm ++ bufL rest

/-- Drained handles sit at consecutive positions starting at `pos`. -/
def chainG : Nat → List GRec → Prop
  | _, [] => True
  | pos, g :: rest =>
    g.batch.start_index = pos ∧ chainG (pos + g.batch.len) rest

/-- Live handles sit at consecutive positions starting at `pos`, their
payload length matches the handle, and a released live batch is empty or has
its header marked retired. -/
def chainL : Nat → List (LRec α) → Prop
  | _, [] => True
  | pos, r :: rest =>
    r.batch.start_index = pos ∧ r.payload.length = r.batch.len ∧
      (r.rel = true → r.payload = [] ∨ r.rm = true) ∧
      chainL (pos + r.batch.len) rest

theorem chainG_cons_iff (pos : Nat) (g : GRec) (rest : List GRec) :
    chainG pos (g :: rest) ↔
      g.batch.start_index = pos ∧ chainG (pos + g.batch.len) rest :=
  Iff.rfl

theorem chainL_cons_iff (pos : Nat) (r : LRec α) (rest : List (LRec α)) :
    chainL pos (r :: rest) ↔
      r.batch.start_index = pos ∧ r.payload.length = r.batch.len ∧
        (r.rel = true → r.payload = [] ∨ r.rm = true) ∧
        chainL (pos + r.batch.len) rest :=
  Iff.rfl

/-- The buffer's front entry, when it carries a header, is not retired
(`cleanup_removed_batchs` has already drained any retired front prefix). -/
def frontOk : List (Item α) → Prop
  | [] => True
  | it :: _ =>
    match it.batch_header with
    | some h => h.is_removed = false
    | none => True

/-- The trace invariant: the issued handles split into a drained prefix and
a live suffix, positions are the prefix sums of handle lengths, the state's
base index is the drained total and its buffer is exactly the live blocks,
with an unretired front. -/
def Inv (t : ArenaTrace α) : Prop :=
  ∃ (gs : List GRec) (ls : List (LRec α)),
    t.handles = gs.map (fun g => g.batch) ++ ls.map (fun r => r.batch) ∧
    t.released = gs.map (fun g => g.rel) ++ ls.map (fun r => r.rel) ∧
    chainG 0 gs ∧ chainL (sumG gs) ls ∧
    t.total = sumG gs + sumL ls ∧
    t.state.start_index = sumG gs ∧
    t.state.buffer = bufL ls ∧
    frontOk (bufL ls)

theorem sumG_append (l1 l2 : List GRec) :
    sumG (l1 ++ l2) = sumG l1 + sumG l2 := by
  simp [sumG]

theorem sumL_append (l1 l2 : List (LRec α)) :
    sumL (l1 ++ l2) = sumL l1 + sumL l2 := by
  simp [sumL]

theorem sumP_append (l1 l2 : List (LRec α)) :
    sumP (l1 ++ l2) = sumP l1 + sumP l2 := by
  simp [sumP]

theorem sumG_toG : ∀ ls : List (LRec α), sumG (ls.map toG) = sumL ls
  | [] => rfl
  | r :: rest => by
    have ih := sumG_toG rest
    show r.batch.len + sumG (rest.map toG) = r.batch.len + sumL rest
    rw [ih]

theorem bufL_append (l1 l2 : List (LRec α)) :
    bufL (l1 ++ l2) = bufL l1 ++ bufL l2 := by
  induction l1 with
  | nil => simp [bufL]
  | cons r rest ih => simp [bufL, ih]

theorem bufL_length (ls : List (LRec α)) : (bufL ls).length = sumP ls := by
  induction ls with
  | nil => simp [bufL, sumP]
  | cons r rest ih => simp [bufL, sumP, blockItems_length, ih]

theorem chainL_sumP (pos : Nat) (ls : List (LRec α)) (h : chainL pos ls) :
    sumP ls = sumL ls := by
  induction ls generalizing pos with
  | nil => rfl
  | cons r rest ih =>
    obtain ⟨-, hlen, -, hrest⟩ := h
    have ih' := ih _ hrest
    show r.payload.length + sumP rest = r.batch.len + sumL rest
    omega

theorem chainG_append (pos : Nat) (l1 l2 : List GRec) :
    chainG pos (l1 ++ l2) ↔ chainG pos l1 ∧ chainG (pos + sumG l1) l2 := by
  induction l1 generalizing pos with
  | nil =>
    constructor
    · intro h
      exact ⟨trivial, by simpa [sumG] using h⟩
    · rintro ⟨-, h⟩
      simpa [sumG] using h
  | cons g rest ih =>
    rw [List.cons_append, chainG_cons_iff, chainG_cons_iff, ih]
    have harr : pos + sumG (g :: rest) = pos + g.batch.len + sumG rest := by
      show pos + (g.batch.len + sumG rest) = pos + g.batch.len + sumG rest
      omega
    constructor
    · rintro ⟨h1, h2, h3⟩
      refine ⟨⟨h1, h2⟩, ?_⟩
      rw [harr]
      exact h3
    · rintro ⟨⟨h1, h2⟩, h3⟩
      refine ⟨h1, h2, ?_⟩
      rw [harr] at h3
      exact h3

theorem chainL_append (pos : Nat) (l1 l2 : List (LRec α)) :
    chainL pos (l1 ++ l2) ↔ chainL pos l1 ∧ chainL (pos + sumL l1) l2 := by
  induction l1 generalizing pos with
  | nil =>
    constructor
    · intro h
      exact ⟨trivial, by simpa [sumL] using h⟩
    · rintro ⟨-, h⟩
      simpa [sumL] using h
  | cons r rest ih =>
    rw [List.cons_append, chainL_cons_iff, chainL_cons_iff, ih]
    have harr : pos + sumL (r :: rest) = pos + r.batch.len + sumL rest := by
      show pos + (r.batch.len + sumL rest) = pos + r.batch.len + sumL rest
      omega
    constructor
    · rintro ⟨h1, h2, h3, h4, h5⟩
      refine ⟨⟨h1, h2, h3, h4⟩, ?_⟩
      rw [harr]
      exact h5
    · rintro ⟨⟨h1, h2, h3, h4⟩, h5⟩
      refine ⟨h1, h2, h3, h4, ?_⟩
      rw [harr] at h5
      exact h5

theorem chainL_toG (pos : Nat) (ls : List (LRec α)) (h : chainL pos ls) :
    chainG pos (ls.map toG) := by
  induction ls generalizing pos with
  | nil => trivial
  | cons r rest ih =>
    obtain ⟨h1, -, -, h4⟩ := h
    exact ⟨h1, ih _ h4⟩

theorem chainL_mem (pos : Nat) (ls : List (LRec α)) (h : chainL pos ls)
    (r : LRec α) (hr : r ∈ ls) :
    r.payload.length = r.batch.len ∧
      (r.rel = true → r.payload = [] ∨ r.rm = true) := by
  induction ls generalizing pos with
  | nil => cases hr
  | cons x rest ih =>
    obtain ⟨-, h2, h3, h4⟩ := h
    rcases List.mem_cons.mp hr with heq | hmem
    · subst heq
      exact ⟨h2, h3⟩
    · exact ih _ h4 hmem

/-- Every buffer described by live records decomposes as an empty-payload
prefix followed by a first nonempty block — or is entirely empty. -/
theorem bufL_decompose (ls : List (LRec α)) :
    (bufL ls = [] ∧ ∀ r ∈ ls, r.payload = []) ∨
    ∃ es b rest, ls = es ++ b :: rest ∧ (∀ r ∈ es, r.payload = []) ∧
      b.payload ≠ [] ∧
      bufL ls = blockItems b.payload b.rm ++ bufL rest := by
  induction ls with
  | nil =>
    refine Or.inl ⟨rfl, ?_⟩
    intro r hr
    cases hr
  | cons r rest ih =>
    by_cases hp : r.payload = []
    · rcases ih with ⟨hb, hall⟩ | ⟨es, b, rest', heq, hes, hbp, hbuf⟩
      · refine Or.inl ⟨?_, ?_⟩
        · simp [bufL, hp, blockItems, hb]
        · intro x hx
          rcases List.mem_cons.mp hx with h | h
          · rw [h]
            exact hp
          · exact hall x h
      · refine Or.inr ⟨r :: es, b, rest', by rw [heq]; rfl, ?_, hbp, ?_⟩
        · intro x hx
          rcases List.mem_cons.mp hx with h | h
          · rw [h]
            exact hp
          · exact hes x h
        · simp [bufL, hp, blockItems, hbuf]
    · refine Or.inr ⟨[], r, rest, rfl, ?_, hp, rfl⟩
      intro x hx
      cases hx

theorem sumP_eq_zero (ls : List (LRec α)) (h : ∀ r ∈ ls, r.payload = []) :
    sumP ls = 0 := by
  induction ls with
  | nil => rfl
  | cons r rest ih =>
    have h1 : r.payload = [] := h r (by simp)
    have h2 : sumP rest = 0 := ih (fun x hx => h x (by simp [hx]))
    show r.payload.length + sumP rest = 0
    simp [h1, h2]

theorem bufL_eq_nil (ls : List (LRec α)) (h : sumP ls = 0) :
    bufL ls = [] := by
  have hl := bufL_length ls
  rw [h] at hl
  exact List.eq_nil_of_length_eq_zero hl

theorem frontOk_append (l1 l2 : List (Item α)) (h1 : frontOk l1)
    (h2 : frontOk l2) : frontOk (l1 ++ l2) := by
  cases l1 with
  | nil => simpa using h2
  | cons it rest => exact h1

theorem frontOk_append_left (l1 l2 : List (Item α)) (hne : l1 ≠ [])
    (h : frontOk (l1 ++ l2)) : frontOk l1 := by
  cases l1 with
  | nil => exact absurd rfl hne
  | cons it rest => exact h

/-- Every item in a live-records buffer that carries a header carries the
positive length of its (nonempty) block. -/
theorem bufL_get_header (ls : List (LRec α)) :
    ∀ (d : Nat) (it : Item α), (bufL ls).get? d = some it →
      ∀ hd : BatchHeader, it.batch_header = some hd → 1 ≤ hd.len := by
  induction ls with
  | nil =>
    intro d it hget
    simp [bufL] at hget
  | cons r rest ih =>
    intro d it hget hd hh
    rw [show bufL (r :: rest) = blockItems r.payload r.rm ++ bufL rest
      from rfl] at hget
    by_cases hlt : d < (blockItems r.payload r.rm).length
    · rw [List.get?_append hlt] at hget
      cases hp : r.payload with
      | nil =>
        rw [hp] at hget
        simp [blockItems] at hget
      | cons a p' =>
        rw [hp] at hget
        cases d with
        | zero =>
          have hit : (⟨a, some ⟨(a :: p').length, r.rm⟩⟩ : Item α) = it := by
            simpa [blockItems] using hget
          rw [← hit] at hh
          have hh2 : some (⟨(a :: p').length, r.rm⟩ : BatchHeader) =
              some hd := hh
          injection hh2 with hh3
          rw [← hh3]
          simp
        | succ d' =>
          have : (p'.map (fun x => (⟨x, none⟩ : Item α))).get? d' =
              some it := by
            simpa [blockItems] using hget
          rw [List.get?_map] at this
          cases hg : p'.get? d' with
          | none =>
            rw [hg] at this
            simp at this
          | some x =>
            rw [hg] at this
            simp at this
            rw [← this] at hh
            simp at hh
    · rw [List.get?_append_right (by omega)] at hget
      exact ih _ _ hget hd hh

theorem sumP_cons (r : LRec α) (ls : List (LRec α)) :
    sumP (r :: ls) = r.payload.length + sumP ls := rfl

theorem sumL_cons (r : LRec α) (ls : List (LRec α)) :
    sumL (r :: ls) = r.batch.len + sumL ls := rfl

theorem cleanupFuel_succ_cons (f : Nat) (a : α) (hlen : Nat) (rm : Bool)
    (tail : List (Item α)) (pos : Nat) :
    cleanupFuel (f + 1)
        { buffer := ⟨a, some ⟨hlen, rm⟩⟩ :: tail, start_index := pos } =
      if rm then
        cleanupFuel f
          { buffer := (⟨a, some ⟨hlen, rm⟩⟩ :: tail).drop hlen,
            start_index := pos + hlen }
      else { buffer := ⟨a, some ⟨hlen, rm⟩⟩ :: tail, start_index := pos } := by
  cases rm <;> rfl

/-- Running the drain loop on a buffer described by live records splits the
records into a drained front part and a kept tail: the result is the tail's
buffer, the base advanced by the drained entry count, and an unretired
front. -/
theorem cleanupFuel_bufL (fuel : Nat) :
    ∀ (ls : List (LRec α)) (pos : Nat), (bufL ls).length ≤ fuel →
      ∃ ds rest, ls = ds ++ rest ∧
        cleanupFuel fuel { buffer := bufL ls, start_index := pos } =
          { buffer := bufL rest, start_index := pos + sumP ds } ∧
        frontOk (bufL rest) := by
  induction fuel using Nat.strong_induction_on with
  | _ fuel ih =>
    intro ls pos hle
    cases fuel with
    | zero =>
      have hnil : bufL ls = [] :=
        List.eq_nil_of_length_eq_zero (Nat.le_zero.mp hle)
      refine ⟨[], ls, rfl, rfl, ?_⟩
      rw [hnil]
      trivial
    | succ f =>
      rcases bufL_decompose ls with ⟨hnil, -⟩ |
        ⟨es, b, rest', heq, hes, hbp, hbuf⟩
      · refine ⟨[], ls, rfl, ?_, ?_⟩
        · rw [hnil]
          rfl
        · rw [hnil]
          trivial
      · cases hp : b.payload with
        | nil => exact absurd hp hbp
        | cons a p' =>
          rw [hp] at hbuf
          have hblock : blockItems (a :: p') b.rm =
              ⟨a, some ⟨(a :: p').length, b.rm⟩⟩ ::
                p'.map (fun x => (⟨x, none⟩ : Item α)) := rfl
          by_cases hrm : b.rm = true
          · rw [hrm] at hbuf
            have hcons : bufL ls =
                ⟨a, some ⟨(a :: p').length, true⟩⟩ ::
                  (p'.map (fun x => (⟨x, none⟩ : Item α)) ++ bufL rest') := by
              rw [hbuf]
              rfl
            have hdrop : (bufL ls).drop ((a :: p').length) = bufL rest' := by
              rw [hbuf, ← blockItems_length (a :: p') true]
              exact List.drop_left _ _
            have hlen1 : (bufL ls).length =
                (a :: p').length + (bufL rest').length := by
              rw [hbuf]
              simp [blockItems_length]
            have hle' : (bufL rest').length ≤ f := by
              simp at hlen1
              omega
            obtain ⟨ds', rest'', hsplit, hres, hfront⟩ :=
              ih f (Nat.lt_succ_self f) rest' (pos + (a :: p').length) hle'
            refine ⟨es ++ b :: ds', rest'', ?_, ?_, hfront⟩
            · rw [heq, hsplit]
              simp
            · have hstep := cleanupFuel_succ_cons f a ((a :: p').length) true
                (p'.map (fun x => (⟨x, none⟩ : Item α)) ++ bufL rest') pos
              rw [if_pos rfl] at hstep
              rw [hcons, hstep, ← hcons, hdrop, hres]
              have h0 : sumP es = 0 := sumP_eq_zero es hes
              have hsum : pos + (a :: p').length + sumP ds' =
                  pos + sumP (es ++ b :: ds') := by
                rw [sumP_append, sumP_cons, hp]
                simp at h0 ⊢
                omega
              rw [hsum]
          · have hrm' : b.rm = false := by
              revert hrm
              cases b.rm <;> simp
            rw [hrm'] at hbuf
            have hcons : bufL ls =
                ⟨a, some ⟨(a :: p').length, false⟩⟩ ::
                  (p'.map (fun x => (⟨x, none⟩ : Item α)) ++ bufL rest') := by
              rw [hbuf]
              rfl
            refine ⟨[], ls, rfl, ?_, ?_⟩
            · have hstep := cleanupFuel_succ_cons f a ((a :: p').length) false
                (p'.map (fun x => (⟨x, none⟩ : Item α)) ++ bufL rest') pos
              rw [if_neg (by simp)] at hstep
              rw [hcons, hstep, ← hcons]
              rfl
            · rw [hcons]
              show (⟨(a :: p').length, false⟩ : BatchHeader).is_removed = false
              rfl

theorem sumG_cons (g : GRec) (gs : List GRec) :
    sumG (g :: gs) = g.batch.len + sumG gs := rfl

theorem set_append_add (xs ys : List β) (k : Nat) (v : β) :
    (xs ++ ys).set (xs.length + k) v = xs ++ ys.set k v := by
  induction xs with
  | nil => simp
  | cons x t ih =>
    have harr : (x :: t).length + k = (t.length + k) + 1 := by
      simp
      omega
    rw [List.cons_append, harr]
    show x :: ((t ++ ys).set (t.length + k) v) = x :: (t ++ ys.set k v)
    rw [ih]

/-- The record of a just-released batch: same handle and payload, released
flag raised, header retired bit as given. -/
def setRel (r : LRec α) (rm2 : Bool) : LRec α :=
  ⟨r.batch, true, r.payload, rm2⟩

theorem set_at_length (A : List β) (x v : β) (B : List β) :
    (A ++ x :: B).set A.length v = A ++ v :: B := by
  have h := set_append_add A (x :: B) 0 v
  rw [Nat.add_zero] at h
  rw [h]
  rfl

theorem list_split_at (l : List β) (i : Nat) (x : β) (h : l.get? i = some x) :
    l = l.take i ++ x :: l.drop (i + 1) := by
  induction l generalizing i with
  | nil => simp at h
  | cons y t ih =>
    cases i with
    | zero =>
      have hy : y = x := by simpa using h
      simp [hy]
    | succ n =>
      simp only [List.take_succ_cons, List.drop_succ_cons, List.cons_append]
      exact congrArg (y :: ·) (ih n (by simpa using h))

theorem chainG_bound (pos : Nat) (gs : List GRec) (h : chainG pos gs)
    (i : Nat) (g : GRec) (hg : gs.get? i = some g) :
    g.batch.start_index + g.batch.len ≤ pos + sumG gs := by
  induction gs generalizing pos i with
  | nil => simp at hg
  | cons x rest ih =>
    obtain ⟨h1, h2⟩ := h
    cases i with
    | zero =>
      have hx : x = g := by simpa using hg
      have hs : sumG (x :: rest) = x.batch.len + sumG rest := rfl
      rw [← hx, h1] at *
      omega
    | succ n =>
      have hrec := ih (pos + x.batch.len) h2 n (by simpa using hg)
      have hs : sumG (x :: rest) = x.batch.len + sumG rest := rfl
      omega

theorem remove_batch_zero_len (ls : List (LRec α)) (pos : Nat) (b : Batch)
    (hb : b.len = 0) :
    remove_batch { buffer := bufL ls, start_index := pos } b =
      { buffer := bufL ls, start_index := pos } := by
  cases hc : convert_to_deque_index
      { buffer := bufL ls, start_index := pos } b.start_index with
  | none => simp [remove_batch, hc]
  | some d =>
    cases hg : (bufL ls)[d]? with
    | none => simp [remove_batch, hc, hg]
    | some item =>
      have hg' : (bufL ls).get? d = some item := by simpa using hg
      apply remove_batch_header_mismatch _ b d item hc hg'
      intro hd hh
      have := bufL_get_header ls d item hg' hd hh
      omega

theorem remove_batch_stale (ls : List (LRec α)) (pos : Nat) (b : Batch)
    (hle : b.start_index + b.len ≤ pos) :
    remove_batch { buffer := bufL ls, start_index := pos } b =
      { buffer := bufL ls, start_index := pos } := by
  by_cases h0 : b.len = 0
  · exact remove_batch_zero_len ls pos b h0
  · refine remove_batch_out_of_range _ b (Or.inl ?_)
    show b.start_index < pos
    omega

theorem remove_batch_mark_front {α : Type} (s : BatchedDequeState α)
    (b : Batch) (item : Item α) (hdr : BatchHeader)
    (hidx : convert_to_deque_index s b.start_index = some 0)
    (hget : s.buffer.get? 0 = some item)
    (hhdr : item.batch_header = some hdr)
    (hlen : hdr.len = b.len) :
    remove_batch s b =
      cleanup_removed_batchs
        { s with buffer := s.buffer.set 0 (markItem item hdr) } := by
  have hget' : s.buffer[0]? = some item := by simpa using hget
  simp [remove_batch, hidx, hget', hhdr, hlen, markItem]

theorem map_toG_batch (ls : List (LRec α)) :
    (ls.map toG).map (fun g => g.batch) = ls.map (fun r => r.batch) := by
  induction ls with
  | nil => rfl
  | cons r rest ih => simp only [List.map_cons, ih]; rfl

theorem map_toG_rel (ls : List (LRec α)) :
    (ls.map toG).map (fun g => g.rel) = ls.map (fun r => r.rel) := by
  induction ls with
  | nil => rfl
  | cons r rest ih => simp only [List.map_cons, ih]; rfl

theorem frontOk_blockItems_false (p : List α) :
    frontOk (blockItems p false) := by
  cases p with
  | nil => trivial
  | cons a rest => exact rfl

theorem frontOk_append_of_ne (l1 l2 : List (Item α)) (hne : l1 ≠ [])
    (h : frontOk l1) : frontOk (l1 ++ l2) := by
  cases l1 with
  | nil => exact absurd rfl hne
  | cons it rest => exact h

theorem push_back_batch_eq (s : BatchedDequeState α) (items : List α) :
    push_back_batch s items =
      ({ buffer := s.buffer ++ blockItems items false,
         start_index := s.start_index },
       { start_index := s.buffer.length + s.start_index,
         len := items.length }) := by
  cases items <;> rfl

/-- `push_back_batch` preserves the trace invariant: the new batch becomes a
live record at the end of the suffix. -/
theorem Inv_append (t : ArenaTrace α) (items : List α) (h : Inv t) :
    Inv (t.stepOp (.append items)) := by
  obtain ⟨gs, ls, hh, hr, hcg, hcl, htot, hst, hbuf, hfo⟩ := h
  have hts : t.state = { buffer := bufL ls, start_index := sumG gs } := by
    rw [← hbuf, ← hst]
  have hstep : t.stepOp (.append items) =
      { state := { buffer := bufL ls ++ blockItems items false,
                   start_index := sumG gs },
        handles := t.handles ++
          [{ start_index := (bufL ls).length + sumG gs,
             len := items.length }],
        released := t.released ++ [false],
        total := t.total + items.length } := by
    show ({ state := (push_back_batch t.state items).1,
            handles := t.handles ++ [(push_back_batch t.state items).2],
            released := t.released ++ [false],
            total := t.total + items.length } : ArenaTrace α) = _
    rw [hts, push_back_batch_eq]
  rw [hstep]
  refine ⟨gs,
    ls ++ [⟨⟨(bufL ls).length + sumG gs, items.length⟩, false, items, false⟩],
    ?_, ?_, hcg, ?_, ?_, ?_, ?_, ?_⟩
  · show t.handles ++ [_] = _
    rw [hh]
    simp
  · show t.released ++ [false] = _
    rw [hr]
    simp
  · refine (chainL_append _ _ _).mpr ⟨hcl, ?_⟩
    rw [chainL_cons_iff]
    refine ⟨?_, rfl, ?_, trivial⟩
    · show (bufL ls).length + sumG gs = sumG gs + sumL ls
      rw [bufL_length, chainL_sumP _ _ hcl]
      omega
    · intro hfalse
      exact absurd hfalse Bool.false_ne_true
  · show t.total + items.length = sumG gs + sumL (ls ++ [_])
    rw [htot, sumL_append, sumL_cons]
    show sumG gs + sumL ls + items.length =
      sumG gs + (sumL ls + (items.length + sumL []))
    show sumG gs + sumL ls + items.length =
      sumG gs + (sumL ls + (items.length + 0))
    omega
  · show sumG gs = sumG gs
    rfl
  · show bufL ls ++ blockItems items false = _
    rw [bufL_append]
    show bufL ls ++ blockItems items false =
      bufL ls ++ (blockItems items false ++ bufL [])
    rw [show bufL ([] : List (LRec α)) = [] from rfl, List.append_nil]
  · rw [bufL_append]
    refine frontOk_append _ _ hfo ?_
    show frontOk (blockItems items false ++ bufL [])
    rw [show bufL ([] : List (LRec α)) = [] from rfl, List.append_nil]
    exact frontOk_blockItems_false items

/-- `remove_batch` (a `BatchGuard` drop) preserves the trace invariant. -/
theorem Inv_release (t : ArenaTrace α) (i : Nat) (h : Inv t) :
    Inv (t.stepOp (.release i)) := by
  obtain ⟨gs, ls, hh, hr, hcg, hcl, htot, hst, hbuf, hfo⟩ := h
  have hts : t.state = { buffer := bufL ls, start_index := sumG gs } := by
    rw [← hbuf, ← hst]
  cases hget : t.handles.get? i with
  | none =>
    have hstep : t.stepOp (.release i) = t := by
      simp only [ArenaTrace.stepOp, hget]
    rw [hstep]
    exact ⟨gs, ls, hh, hr, hcg, hcl, htot, hst, hbuf, hfo⟩
  | some b =>
    have hstep : t.stepOp (.release i) =
        { t with state := remove_batch t.state b,
                 released := t.released.set i true } := by
      simp only [ArenaTrace.stepOp, hget]
    rw [hstep]
    rw [hh] at hget
    by_cases hi : i < gs.length
    · -- the handle was drained earlier: release is a state no-op
      have hgetg : (gs.map (fun g => g.batch)).get? i = some b := by
        rw [List.get?_append (by simpa using hi)] at hget
        exact hget
      obtain ⟨g, hg, hgb⟩ : ∃ g, gs.get? i = some g ∧ g.batch = b := by
        rw [List.get?_map] at hgetg
        cases hg : gs.get? i with
        | none => rw [hg] at hgetg; simp at hgetg
        | some g => rw [hg] at hgetg; simp at hgetg; exact ⟨g, rfl, hgetg⟩
      have hbound : b.start_index + b.len ≤ sumG gs := by
        have hc := chainG_bound 0 gs hcg i g hg
        rw [hgb] at hc
        omega
      have hnoop : remove_batch t.state b = t.state := by
        rw [hts]
        exact remove_batch_stale ls (sumG gs) b hbound
      have hsplit := list_split_at gs i g hg
      have htk : (gs.take i).length = i := by
        rw [List.length_take]
        exact Nat.min_eq_left (Nat.le_of_lt hi)
      have hsg : sumG (gs.take i ++ ⟨g.batch, true⟩ :: gs.drop (i + 1)) =
          sumG gs := by
        conv_rhs => rw [hsplit]
        rw [sumG_append, sumG_append, sumG_cons, sumG_cons]
      refine ⟨gs.take i ++ ⟨g.batch, true⟩ :: gs.drop (i + 1), ls,
        ?_, ?_, ?_, ?_, ?_, ?_, ?_, hfo⟩
      · show t.handles = _
        rw [hh]
        conv_lhs => rw [hsplit]
        simp
      · show t.released.set i true = _
        rw [hr]
        conv_lhs => rw [hsplit]
        rw [List.map_append, List.map_cons, List.append_assoc,
          List.cons_append]
        have hset := set_at_length ((gs.take i).map (fun g => g.rel)) g.rel
          true ((gs.drop (i + 1)).map (fun g => g.rel) ++
            ls.map (fun r => r.rel))
        rw [List.length_map, htk] at hset
        rw [hset]
        simp
      · rw [hsplit] at hcg
        rw [chainG_append] at hcg ⊢
        obtain ⟨hcg1, hcg2⟩ := hcg
        rw [chainG_cons_iff] at hcg2 ⊢
        exact ⟨hcg1, hcg2⟩
      · rw [hsg]
        exact hcl
      · rw [htot, hsg]
      · show (remove_batch t.state b).start_index = _
        rw [hnoop, hst, hsg]
      · show (remove_batch t.state b).buffer = _
        rw [hnoop, hbuf]
    · -- the handle is in the live suffix
      obtain ⟨j, rfl⟩ : ∃ j, i = gs.length + j := ⟨i - gs.length, by omega⟩
      have hgetl : (ls.map (fun r => r.batch)).get? j = some b := by
        have hlen1 : (List.map (fun g => g.batch) gs).length ≤
            gs.length + j := by
          simp
        rw [List.get?_append_right hlen1] at hget
        simpa using hget
      obtain ⟨r, hrg, hrb⟩ : ∃ r, ls.get? j = some r ∧ r.batch = b := by
        rw [List.get?_map] at hgetl
        cases hg2 : ls.get? j with
        | none => rw [hg2] at hgetl; simp at hgetl
        | some r => rw [hg2] at hgetl; simp at hgetl; exact ⟨r, rfl, hgetl⟩
      have hjlt : j < ls.length := by
        by_contra hc
        rw [List.get?_eq_none.mpr (by omega)] at hrg
        cases hrg
      obtain ⟨l1, l2, hls, hl1len⟩ :
          ∃ l1 l2, ls = l1 ++ r :: l2 ∧ l1.length = j := by
        refine ⟨ls.take j, ls.drop (j + 1), list_split_at ls j r hrg, ?_⟩
        rw [List.length_take]
        exact Nat.min_eq_left (Nat.le_of_lt hjlt)
      subst hls
      obtain ⟨hcl1, hclr⟩ := (chainL_append _ _ _).mp hcl
      rw [chainL_cons_iff] at hclr
      obtain ⟨hrs, hrlen, hrrel, hcl2⟩ := hclr
      have hsumP1 : sumP l1 = sumL l1 := chainL_sumP _ _ hcl1
      have hb1 : (bufL l1).length = sumL l1 := by rw [bufL_length, hsumP1]
      by_cases hpe : r.payload = []
      · -- empty batch: release is a state no-op
        have hlen0 : b.len = 0 := by
          rw [← hrb, ← hrlen, hpe]
          rfl
        have hnoop : remove_batch t.state b = t.state := by
          rw [hts]
          exact remove_batch_zero_len _ _ b hlen0
        have hbufeq :
            bufL (l1 ++ (setRel r r.rm) :: l2) =
              bufL (l1 ++ r :: l2) := by
          rw [bufL_append, bufL_append]
          rfl
        have hsleq :
            sumL (l1 ++ (setRel r r.rm) :: l2) =
              sumL (l1 ++ r :: l2) := by
          rw [sumL_append, sumL_append, sumL_cons, sumL_cons]
          rfl
        refine ⟨gs, l1 ++ (setRel r r.rm) :: l2,
          ?_, ?_, hcg, ?_, ?_, ?_, ?_, ?_⟩
        · show t.handles = _
          rw [hh]
          simp [setRel]
        · show t.released.set (gs.length + j) true = _
          rw [hr, List.map_append, List.map_cons, ← List.append_assoc]
          have hset := set_at_length
            (gs.map (fun g => g.rel) ++ l1.map (fun x => x.rel)) r.rel true
            (l2.map (fun x => x.rel))
          have hlen2 : (gs.map (fun g => g.rel) ++
              l1.map (fun x => x.rel)).length = gs.length + j := by
            simp [hl1len]
          rw [hlen2] at hset
          rw [hset]
          simp [setRel]
        · refine (chainL_append _ _ _).mpr ⟨hcl1, ?_⟩
          rw [chainL_cons_iff]
          exact ⟨hrs, hrlen, fun _ => Or.inl hpe, hcl2⟩
        · rw [htot, hsleq]
        · show (remove_batch t.state b).start_index = _
          rw [hnoop, hst]
        · show (remove_batch t.state b).buffer = _
          rw [hnoop, hbuf, hbufeq]
        · rw [hbufeq]
          exact hfo
      · -- nonempty batch: its header gets marked retired
        obtain ⟨a, p', hpa⟩ : ∃ a p', r.payload = a :: p' := by
          cases hp : r.payload with
          | nil => exact absurd hp hpe
          | cons a p' => exact ⟨a, p', rfl⟩
        have hblen : b.len = r.payload.length := by
          rw [← hrb, ← hrlen]
        have hplen1 : 1 ≤ r.payload.length := by
          rw [hpa]
          simp
        have hlsbuf : bufL (l1 ++ r :: l2) =
            bufL l1 ++ (blockItems r.payload r.rm ++ bufL l2) := by
          rw [bufL_append]
          rfl
        have hlen_ls : (bufL (l1 ++ r :: l2)).length =
            sumL l1 + (r.payload.length + sumP l2) := by
          rw [hlsbuf]
          simp [hb1, blockItems_length, bufL_length]
        have hbs : b.start_index = sumG gs + sumL l1 := by
          rw [← hrb]
          exact hrs
        have hconv : convert_to_deque_index t.state b.start_index =
            some (sumL l1) := by
          rw [hts]
          show (if sumG gs ≤ b.start_index ∧
              b.start_index < sumG gs + (bufL (l1 ++ r :: l2)).length then
                some (b.start_index - sumG gs) else none) = some (sumL l1)
          rw [if_pos ⟨by omega, by rw [hbs, hlen_ls]; omega⟩]
          rw [hbs]
          congr 1
          omega
        have hgot : t.state.buffer.get? (sumL l1) =
            some (⟨a, some ⟨r.payload.length, r.rm⟩⟩ : Item α) := by
          rw [hts]
          show (bufL (l1 ++ r :: l2)).get? (sumL l1) = _
          rw [hlsbuf, List.get?_append_right (Nat.le_of_eq hb1)]
          rw [show sumL l1 - (bufL l1).length = 0 by rw [hb1]; omega]
          rw [hpa]
          rfl
        have hsetbuf : t.state.buffer.set (sumL l1)
            (markItem (⟨a, some ⟨r.payload.length, r.rm⟩⟩ : Item α)
              ⟨r.payload.length, r.rm⟩) =
            bufL (l1 ++ (setRel r true) :: l2) := by
          rw [hts]
          show (bufL (l1 ++ r :: l2)).set (sumL l1) _ = _
          rw [hlsbuf, show sumL l1 = (bufL l1).length + 0 by rw [hb1]; rfl,
            set_append_add, bufL_append]
          congr 1
          show (blockItems r.payload r.rm ++ bufL l2).set 0
            (markItem (⟨a, some ⟨r.payload.length, r.rm⟩⟩ : Item α)
              ⟨r.payload.length, r.rm⟩) = blockItems r.payload true ++ bufL l2
          rw [hpa]
          rfl
        have hchain2 : chainL (sumG gs)
            (l1 ++ (setRel r true) :: l2) := by
          refine (chainL_append _ _ _).mpr ⟨hcl1, ?_⟩
          rw [chainL_cons_iff]
          exact ⟨hrs, hrlen, fun _ => Or.inr rfl, hcl2⟩
        have hsleq : sumL (l1 ++ (setRel r true) :: l2) =
            sumL (l1 ++ r :: l2) := by
          rw [sumL_append, sumL_append, sumL_cons, sumL_cons]
          rfl
        have hrelset : t.released.set (gs.length + j) true =
            gs.map (fun g => g.rel) ++
              (l1 ++ (setRel r true) :: l2).map
                (fun x => x.rel) := by
          rw [hr, List.map_append, List.map_cons, ← List.append_assoc]
          have hset := set_at_length
            (gs.map (fun g => g.rel) ++ l1.map (fun x => x.rel)) r.rel true
            (l2.map (fun x => x.rel))
          have hlen2 : (gs.map (fun g => g.rel) ++
              l1.map (fun x => x.rel)).length = gs.length + j := by
            simp [hl1len]
          rw [hlen2] at hset
          rw [hset]
          simp [setRel]
        by_cases hz : sumL l1 = 0
        · -- front batch: the prefix drain runs
          have hconv0 : convert_to_deque_index t.state b.start_index =
              some 0 := by
            rw [hconv, hz]
          rw [hz] at hgot hsetbuf
          have hrem := remove_batch_mark_front t.state b
            (⟨a, some ⟨r.payload.length, r.rm⟩⟩ : Item α)
            ⟨r.payload.length, r.rm⟩ hconv0 hgot rfl hblen.symm
          obtain ⟨ds, rest, hdsplit, hcres, hfront2⟩ :=
            cleanupFuel_bufL
              (bufL (l1 ++ (setRel r true) :: l2)).length
              (l1 ++ (setRel r true) :: l2)
              (sumG gs) (Nat.le_refl _)
          have hclean : cleanup_removed_batchs
              { buffer := bufL (l1 ++ (setRel r true) :: l2),
                start_index := sumG gs } =
              { buffer := bufL rest, start_index := sumG gs + sumP ds } := by
            exact hcres
          rw [hsetbuf, hst] at hrem
          rw [hclean] at hrem
          rw [hdsplit] at hchain2
          obtain ⟨hcds, hcrest⟩ := (chainL_append _ _ _).mp hchain2
          have hsumPds : sumP ds = sumL ds := chainL_sumP _ _ hcds
          have hsldr : sumL (l1 ++ r :: l2) = sumL ds + sumL rest := by
            rw [← hsleq, hdsplit, sumL_append]
          refine ⟨gs ++ ds.map toG, rest, ?_, ?_, ?_, ?_, ?_, ?_, ?_,
            hfront2⟩
          · show t.handles = _
            have h1 : (gs ++ ds.map toG).map (fun g => g.batch) =
                gs.map (fun g => g.batch) ++ ds.map (fun x => x.batch) := by
              rw [List.map_append, map_toG_batch]
            rw [hh, h1, List.append_assoc]
            congr 1
            have hmb : (l1 ++ r :: l2).map (fun x => x.batch) =
                (l1 ++ (setRel r true) :: l2).map
                  (fun x => x.batch) := by
              simp [setRel]
            rw [hmb, hdsplit, List.map_append]
          · show t.released.set (gs.length + j) true = _
            have h2 : (gs ++ ds.map toG).map (fun g => g.rel) =
                gs.map (fun g => g.rel) ++ ds.map (fun x => x.rel) := by
              rw [List.map_append, map_toG_rel]
            rw [hrelset, h2, List.append_assoc]
            congr 1
            rw [hdsplit, List.map_append]
          · rw [chainG_append]
            refine ⟨hcg, ?_⟩
            rw [Nat.zero_add]
            exact chainL_toG _ _ hcds
          · rw [sumG_append, sumG_toG]
            exact hcrest
          · rw [htot, sumG_append, sumG_toG, hsldr]
            omega
          · show (remove_batch t.state b).start_index = _
            rw [hrem]
            show sumG gs + sumP ds = _
            rw [sumG_append, sumG_toG, hsumPds]
          · show (remove_batch t.state b).buffer = _
            rw [hrem]
        · -- non-front batch: mark only, no drain
          have hrem := remove_batch_mark_nonfront t.state b (sumL l1)
            (⟨a, some ⟨r.payload.length, r.rm⟩⟩ : Item α)
            ⟨r.payload.length, r.rm⟩ hconv hgot rfl hblen.symm hz
          have hl1ne : bufL l1 ≠ [] := by
            intro hx
            rw [hx] at hb1
            simp at hb1
            exact hz hb1.symm
          refine ⟨gs, l1 ++ (setRel r true) :: l2,
            ?_, ?_, hcg, hchain2, ?_, ?_, ?_, ?_⟩
          · show t.handles = _
            rw [hh]
            simp [setRel]
          · show t.released.set (gs.length + j) true = _
            exact hrelset
          · rw [htot, hsleq]
          · show (remove_batch t.state b).start_index = _
            rw [hrem]
            show t.state.start_index = _
            rw [hst]
          · show (remove_batch t.state b).buffer = _
            rw [hrem]
            show t.state.buffer.set (sumL l1) _ = _
            exact hsetbuf
          · rw [bufL_append]
            refine frontOk_append_of_ne _ _ hl1ne ?_
            rw [hlsbuf] at hfo
            exact frontOk_append_left _ _ hl1ne hfo

theorem Inv_stepOp (t : ArenaTrace α) (op : ArenaOp α) (h : Inv t) :
    Inv (t.stepOp op) := by
  cases op with
  | append items => exact Inv_append t items h
  | release i => exact Inv_release t i h

theorem Inv_init : Inv (ArenaTrace.init : ArenaTrace α) :=
  ⟨[], [], rfl, rfl, trivial, trivial, rfl, rfl, rfl, trivial⟩

theorem Inv_run (ops : List (ArenaOp α)) : Inv (ArenaTrace.run ops) := by
  have hfold : ∀ (l : List (ArenaOp α)) (t : ArenaTrace α), Inv t →
      Inv (l.foldl ArenaTrace.stepOp t) := by
    intro l
    induction l with
    | nil => intro t ht; exact ht
    | cons op rest ih => intro t ht; exact ih _ (Inv_stepOp t op ht)
  exact hfold ops _ Inv_init

/-- When every issued handle has been released, the invariant forces an
empty buffer and a base index equal to the total appended count. -/
theorem Inv_final (t : ArenaTrace α) (hInv : Inv t)
    (hall : ∀ f ∈ t.released, f = true) :
    t.state.buffer = [] ∧ t.state.start_index = t.total := by
  obtain ⟨gs, ls, hh, hr, hcg, hcl, htot, hst, hbuf, hfo⟩ := hInv
  have hrel : ∀ r ∈ ls, r.rel = true := by
    intro r hrls
    apply hall
    rw [hr]
    exact List.mem_append_right _ (List.mem_map_of_mem _ hrls)
  have hempty : ∀ r ∈ ls, r.payload = [] := by
    rcases bufL_decompose ls with ⟨hnil, hall2⟩ |
      ⟨es, bb, rest, heq, hes, hbp, hbl⟩
    · exact hall2
    · exfalso
      have hbmem : bb ∈ ls := by
        rw [heq]
        exact List.mem_append_right _ (List.mem_cons_self _ _)
      have hb2 := (chainL_mem _ _ hcl bb hbmem).2 (hrel bb hbmem)
      rcases hb2 with hbe | hbrm
      · exact hbp hbe
      · rw [hbl] at hfo
        cases hp : bb.payload with
        | nil => exact hbp hp
        | cons a p' =>
          rw [hp] at hfo
          have hfalse : bb.rm = false := hfo
          rw [hbrm] at hfalse
          cases hfalse
  have hsp : sumP ls = 0 := sumP_eq_zero ls hempty
  constructor
  · rw [hbuf]
    exact bufL_eq_nil ls hsp
  · rw [hst, htot]
    have hspl := chainL_sumP _ _ hcl
    omega

end BD

/-- C6: after any finite sequence of `append_batch`/release operations on a
batched-deque arena, once every issued handle has been released the buffer
is empty and the base index equals the total number of entries ever
appended; and a release of a non-front batch (handle start differing from
the arena base) never shrinks the buffer. -/
theorem C6_arena_reclamation :
    (∀ (α : Type) (ops : List (BD.ArenaOp α)),
        (∀ f ∈ (BD.ArenaTrace.run ops).released, f = true) →
        (BD.ArenaTrace.run ops).state.buffer = [] ∧
          (BD.ArenaTrace.run ops).state.start_index =
            (BD.ArenaTrace.run ops).total) ∧
    (∀ (α : Type) (s : BD.BatchedDequeState α) (b : BD.Batch),
        b.start_index ≠ s.start_index →
        (BD.remove_batch s b).buffer.length = s.buffer.length) := by
  constructor
  · intro α ops hall
    exact BD.Inv_final _ (BD.Inv_run ops) hall
  · intro α s b hne
    exact (BD.remove_batch_nonfront s b hne).1
